import Mathlib

/-!
Shallow embedding of the caching/consistency core of the `uv` resolver:

* `crates/uv-resolver/src/fork_indexes.rs` — the fork-local index tracker
  (`ForkIndexes::get`, `ForkIndexes::insert`).
* `crates/uv-distribution/src/index/registry_wheel_index.rs` — the registry
  wheel index (`RegistryWheelIndex::get`, `::get_impl`, `::index`,
  `::add_wheel`).

External collaborator types (package names, index URLs, versions, platform
tags, hash policies, the on-disk cache) are modelled abstractly, keeping
exactly the structure the embedded code observes: package names are strings,
versions are naturally ordered values, the compatibility of a wheel filename
against a tag set is an abstract function into the `TagCompatibility` order,
and the cache is a bundle of enumeration/read capabilities.  Rust hash maps
are modelled as association lists (lookup by first match; keys are unique in
every reachable state because insertion happens only on the vacant path),
`BTreeMap` as a key-sorted association list, and `IndexMap` as an
insertion-ordered association list.
-/

/-- Normalized package name (`uv_normalize::PackageName`), modelled as its
normalized string form. -/
abbrev PackageName := String

/-- Identity of a configured package source (`distribution_types::IndexUrl`).
The three constructors mirror the Rust enum variants `Pypi`, `Url` and
`Path`; the payload stands for the verbatim URL the variant wraps. -/
inductive IndexUrl where
  | pypi (url : String)
  | url (url : String)
  | path (url : String)
deriving DecidableEq, Repr

namespace IndexUrl

/-- Rendering of an `IndexUrl` to its canonical string form (the `Display`
implementation used by `.to_string()` in the Rust source). -/
def to_string : IndexUrl → String
  | .pypi s => s
  | .url s => s
  | .path s => s

/-- Discrimination used by `RegistryWheelIndex::index`: `Pypi` and `Url` are
remote registries, `Path` is a local (`--find-links` style) source. -/
def is_remote : IndexUrl → Bool
  | .pypi _ => true
  | .url _ => true
  | .path _ => false

end IndexUrl

/-- Environment-marker expression (`pep508_rs::MarkerTree`), opaque to the
embedded code: only carried around and cloned, never inspected. -/
abbrev MarkerTree := String

/-- Concrete marker environment (`ResolverMarkerEnvironment`), opaque to the
embedded code. -/
abbrev MarkerEnvironment := String

/-- Shape of the current resolver exploration context
(`uv_resolver::resolver::ResolverMarkers`): a universal resolution, a
resolution for one specific environment, or a marker-constrained fork. -/
inductive ResolverMarkers where
  | universal (initial_forks : List MarkerTree)
  | specificEnvironment (env : MarkerEnvironment)
  | fork (markers : MarkerTree)
deriving DecidableEq, Repr

/-- Resolver error (`uv_resolver::ResolveError`), restricted to the two
variants `ForkIndexes::insert` can produce. -/
inductive ResolveError where
  | conflictingIndexesUniversal (package_name : PackageName) (conflicts : List String)
  | conflictingIndexesFork (package_name : PackageName) (indexes : List String)
      (fork_markers : MarkerTree)
deriving DecidableEq, Repr

namespace ResolveError

/-- Package name carried by a conflicting-indexes error. -/
def package_name : ResolveError → PackageName
  | .conflictingIndexesUniversal p _ => p
  | .conflictingIndexesFork p _ _ => p

/-- Sorted pair of conflicting index strings carried by a
conflicting-indexes error. -/
def conflicts : ResolveError → List String
  | .conflictingIndexesUniversal _ c => c
  | .conflictingIndexesFork _ c _ => c

end ResolveError

/-- Result of `vec![a, b]; conflicts.sort()` in `ForkIndexes::insert`: the
two-element list sorted ascending (stable, so `[a, b]` is kept when the
entries are equal). -/
def sortConflicts (a b : String) : List String :=
  if b < a then [b, a] else [a, b]

/-- Fork-local index tracker (`uv_resolver::fork_indexes::ForkIndexes`), a
hash map from package name to the index pinned for it in this fork, modelled
as an association list.  All reachable states have unique keys because
insertion happens only when the key is vacant. -/
abbrev ForkIndexes := List (PackageName × IndexUrl)

namespace ForkIndexes

/-- Embeds `ForkIndexes::get`: the `IndexUrl` previously used for a package
in this fork, if any. -/
def get (self : ForkIndexes) (package_name : PackageName) : Option IndexUrl :=
  (self.find? (fun kv => kv.1 == package_name)).map (fun kv => kv.2)

/-- Embeds `ForkIndexes::insert`, which checks that `index` is the only
`IndexUrl` used for `package_name` in this fork.  The Rust entry API is
rendered as a lookup: on a vacant key the pin is recorded; on an occupied key
holding a different index the call fails with a variant selected by the shape
of `fork_markers`, leaving the map untouched; on an occupied key holding the
same index nothing changes.  The pair returns the `Result` together with the
post-state of the `&mut self` receiver. -/
def insert (self : ForkIndexes) (package_name : PackageName) (index : IndexUrl)
    (fork_markers : ResolverMarkers) : Except ResolveError Unit × ForkIndexes :=
  match self.get package_name with
  | some previous =>
      if previous ≠ index then
        let conflicts := sortConflicts previous.to_string index.to_string
        match fork_markers with
        | ResolverMarkers.universal _ | ResolverMarkers.specificEnvironment _ =>
            (Except.error (ResolveError.conflictingIndexesUniversal package_name conflicts),
              self)
        | ResolverMarkers.fork fork_markers =>
            (Except.error (ResolveError.conflictingIndexesFork package_name conflicts
              fork_markers), self)
      else (Except.ok (), self)
  | none => (Except.ok (), self ++ [(package_name, index)])

end ForkIndexes

/-! ### Registry wheel index: collaborator data model -/

/-- Active platform/interpreter tag set (`platform_tags::Tags`), opaque to
the embedded code: it is only ever passed to
`WheelFilename::compatibility`. -/
abbrev Tags := Nat

/-- Compatibility ranking of a wheel against a tag set
(`platform_tags::TagCompatibility`): either incompatible (with a reason
payload) or compatible (with a priority payload).  The derived Rust `Ord`
puts every `Incompatible` below every `Compatible` and orders equal
constructors by payload; the payloads are modelled as naturals. -/
inductive TagCompatibility where
  | incompatible (tag : Nat)
  | compatible (priority : Nat)
deriving DecidableEq, Repr

namespace TagCompatibility

/-- Comparison mirroring the derived `Ord` on `TagCompatibility`. -/
def cmp : TagCompatibility → TagCompatibility → Ordering
  | .incompatible a, .incompatible b => compare a b
  | .incompatible _, .compatible _ => Ordering.lt
  | .compatible _, .incompatible _ => Ordering.gt
  | .compatible a, .compatible b => compare a b

/-- Embeds `TagCompatibility::is_compatible`. -/
def is_compatible : TagCompatibility → Bool
  | .compatible _ => true
  | .incompatible _ => false

end TagCompatibility

/-- Version of a distribution (`pep440_rs::Version`), modelled as a
naturally ordered value; the embedded code only compares and equates
versions. -/
abbrev Version := Nat

/-- Parsed wheel filename (`distribution_filename::WheelFilename`).  The
embedded code reads the package name, the version, and the compatibility of
the filename's tag signature against a tag set; the tag signature itself is
opaque, so it is modelled as the function `compatibility` it induces
(mirroring the method `WheelFilename::compatibility(&self, tags)`). -/
structure WheelFilename where
  name : PackageName
  version : Version
  compatibility : Tags → TagCompatibility

/-- Content-hash fingerprint (`pypi_types::HashDigest`), opaque. -/
abbrev HashDigest := Nat

/-- Hash-verification policy for one (name, version)
(`uv_types::HashPolicy`), collapsed together with the external
`Hashed::satisfies` interpretation into the predicate it induces on a digest
set: `policy digests = true` iff the digest set satisfies the policy. -/
abbrev HashPolicy := List HashDigest → Bool

/-- Hash strategy (`uv_types::HashStrategy`): yields the active policy for a
package name and version via `get_package`. -/
structure HashStrategy where
  get_package : PackageName → Version → HashPolicy

/-- Cached source-distribution revision (`uv_distribution::source::Revision`):
a content-derived identifier locating built outputs, plus the hash
fingerprints of the source input. -/
structure Revision where
  id : String
  hashes : List HashDigest

/-- Embeds `Revision::satisfies` (via the `Hashed` trait): the revision's
own digests are checked against the policy. -/
def Revision.satisfies (self : Revision) (hashes : HashPolicy) : Bool :=
  hashes self.hashes

/-- Revision pointer persisted for a remote registry source
(`uv_distribution::source::HttpRevisionPointer`). -/
structure HttpRevisionPointer where
  revision : Revision

/-- Embeds `HttpRevisionPointer::into_revision`. -/
def HttpRevisionPointer.into_revision (self : HttpRevisionPointer) : Revision :=
  self.revision

/-- Revision pointer persisted for a local path source
(`uv_distribution::source::LocalRevisionPointer`). -/
structure LocalRevisionPointer where
  revision : Revision

/-- Embeds `LocalRevisionPointer::into_revision`. -/
def LocalRevisionPointer.into_revision (self : LocalRevisionPointer) : Revision :=
  self.revision

/-- Cached wheel descriptor (`uv_distribution::index::cached_wheel::CachedWheel`):
the parsed filename plus the hash fingerprints recorded for the wheel. -/
structure CachedWheel where
  filename : WheelFilename
  hashes : List HashDigest

/-- Embeds `CachedWheel::satisfies` (via the `Hashed` trait): the wheel's
own digests are checked against the policy. -/
def CachedWheel.satisfies (self : CachedWheel) (hashes : HashPolicy) : Bool :=
  hashes self.hashes

/-- Cached registry distribution (`distribution_types::CachedRegistryDist`):
the candidate record retained in the index; the embedded code reads its
filename (version and tag compatibility). -/
structure CachedRegistryDist where
  filename : WheelFilename
  hashes : List HashDigest

/-- Embeds `CachedWheel::into_registry_dist`. -/
def CachedWheel.into_registry_dist (self : CachedWheel) : CachedRegistryDist :=
  { filename := self.filename, hashes := self.hashes }

/-- Directory entry found under a cache shard, with its file extension as
returned by `Path::extension()`. -/
structure File where
  stem : String
  ext : Option String

/-- Lowering of an ASCII uppercase character, identity elsewhere. -/
def asciiLowerChar (c : Char) : Char :=
  if 'A' ≤ c ∧ c ≤ 'Z' then Char.ofNat (c.toNat + 32) else c

/-- Embeds `str::eq_ignore_ascii_case`. -/
def eqIgnoreAsciiCase (a b : String) : Bool :=
  a.data.map asciiLowerChar == b.data.map asciiLowerChar

/-- Configured index (`distribution_types::Index`); the embedded code only
reads its `url()`. -/
structure Index where
  url : IndexUrl
deriving DecidableEq, Repr

/-- Embeds `Index::from_extra_index_url`, which wraps a flat-index URL as a
synthetic extra index. -/
def Index.from_extra_index_url (url : IndexUrl) : Index :=
  { url := url }

/-- Configured index collection (`distribution_types::IndexLocations`):
`allowed_indexes` is the priority-ordered list of configured indexes and
`flat_index` the supplementary flat/local sources, already rendered as the
`IndexUrl` each `FlatIndexLocation` converts into. -/
structure IndexLocations where
  allowed_indexes : List Index
  flat_index : List IndexUrl

/-- Flattened scan order of `RegistryWheelIndex::index`: the configured
indexes followed by the flat sources wrapped via
`Index::from_extra_index_url` (the `chain` of the Rust source). -/
def IndexLocations.flattened (self : IndexLocations) : List Index :=
  self.allowed_indexes ++ self.flat_index.map Index.from_extra_index_url

/-- On-disk cache (`uv_cache::Cache`) as the read-only capability bundle the
embedded code consumes, keyed by the arguments the source composes into
paths.  Field by field:

* `files i p` — `files(&wheel_dir)` for the `CacheBucket::Wheels` shard of
  index `i` and package `p`;
* `http_pointer i p f` — `CachedWheel::from_http_pointer(wheel_dir.join(f))`;
* `local_pointer i p f` — `CachedWheel::from_local_pointer(wheel_dir.join(f))`;
* `directories i p` — `directories(&cache_shard)` for the
  `CacheBucket::SourceDistributions` shard of index `i` and package `p`;
* `http_revision i p s` — `HttpRevisionPointer::read_from(cache_shard.entry(HTTP_REVISION))`
  for subdirectory `s` (a `Result<Option<_>>`);
* `local_revision i p s` — `LocalRevisionPointer::read_from(cache_shard.entry(LOCAL_REVISION))`;
* `symlinks i p s rid` — `symlinks(cache_shard.join(revision.id()))` for
  subdirectory `s` and revision id `rid`;
* `built_source d` — `CachedWheel::from_built_source(d)` for a built-wheel
  output directory `d`. -/
structure Cache where
  files : IndexUrl → PackageName → List File
  http_pointer : IndexUrl → PackageName → File → Option CachedWheel
  local_pointer : IndexUrl → PackageName → File → Option CachedWheel
  directories : IndexUrl → PackageName → List String
  http_revision : IndexUrl → PackageName → String → Except String (Option HttpRevisionPointer)
  local_revision : IndexUrl → PackageName → String → Except String (Option LocalRevisionPointer)
  symlinks : IndexUrl → PackageName → String → String → List String
  built_source : String → Option CachedWheel

/-! ### Registry wheel index: the embedded operations -/

/-- Per-index `BTreeMap<Version, CachedRegistryDist>`, modelled as an
association list that is kept sorted by strictly ascending version. -/
abbrev VersionMap := List (Version × CachedRegistryDist)

/-- Lookup in a `VersionMap` (`BTreeMap::get`/`get_mut`). -/
def btreeGet (m : VersionMap) (v : Version) : Option CachedRegistryDist :=
  (m.find? (fun kv => kv.1 == v)).map (fun kv => kv.2)

/-- Insertion into a `VersionMap` (`BTreeMap::insert`, also covering the
`*existing = dist_info` overwrite through `get_mut`): places the binding at
its sorted position, replacing an existing binding for the same version. -/
def btreeInsert (m : VersionMap) (v : Version) (d : CachedRegistryDist) : VersionMap :=
  match m with
  | [] => [(v, d)]
  | (k, x) :: rest =>
      if v < k then (v, d) :: (k, x) :: rest
      else if v = k then (v, d) :: rest
      else (k, x) :: btreeInsert rest v d

/-- Key-value map of `RegistryWheelIndex::index`'s result,
`IndexMap<Index, BTreeMap<Version, CachedRegistryDist>>`, modelled as an
insertion-ordered association list. -/
abbrev IndexVersionsMap := List (Index × VersionMap)

/-- Embeds `IndexMap::insert`: replaces the value in place when the key is
present, otherwise appends the new binding at the end. -/
def indexMapInsert (m : IndexVersionsMap) (k : Index) (v : VersionMap) : IndexVersionsMap :=
  if m.any (fun kv => kv.1 == k) then
    m.map (fun kv => if kv.1 == k then (kv.1, v) else kv)
  else m ++ [(k, v)]

namespace RegistryWheelIndex

/-- Embeds `RegistryWheelIndex::add_wheel` (lines 208–225): picks the wheel
with the highest priority for its version.  If a record exists for the
version it is overridden exactly when the new compatibility is strictly
greater; otherwise the wheel is inserted only when it is compatible. -/
def add_wheel (wheel : CachedWheel) (tags : Tags) (versions : VersionMap) : VersionMap :=
  let dist_info := wheel.into_registry_dist
  let compatibility := dist_info.filename.compatibility tags
  match btreeGet versions dist_info.filename.version with
  | some existing =>
      if TagCompatibility.cmp compatibility (existing.filename.compatibility tags)
          = Ordering.gt then
        btreeInsert versions dist_info.filename.version dist_info
      else versions
  | none =>
      if compatibility.is_compatible then
        btreeInsert versions dist_info.filename.version dist_info
      else versions

/-- Body of the first loop of `RegistryWheelIndex::index` (lines 110–151)
for one directory entry: the extension gate (`http` for remote registries,
`rev` for local ones, compared ASCII-case-insensitively), the pointer read,
and the hash gate on the wheel itself.  Returns the wheel passed on to
`add_wheel`, if any. -/
def file_candidate (cache : Cache) (hasher : HashStrategy) (index : Index)
    (package : PackageName) (file : File) : Option CachedWheel :=
  match index.url with
  | IndexUrl.pypi _ | IndexUrl.url _ =>
      if file.ext.any (fun ext => eqIgnoreAsciiCase ext "http") then
        match cache.http_pointer index.url package file with
        | some wheel =>
            if wheel.satisfies
                (hasher.get_package wheel.filename.name wheel.filename.version) then
              some wheel
            else none
        | none => none
      else none
  | IndexUrl.path _ =>
      if file.ext.any (fun ext => eqIgnoreAsciiCase ext "rev") then
        match cache.local_pointer index.url package file with
        | some wheel =>
            if wheel.satisfies
                (hasher.get_package wheel.filename.name wheel.filename.version) then
              some wheel
            else none
        | none => none
      else none

/-- Revision read of the second loop of `RegistryWheelIndex::index`
(lines 166–185): remote registries read an HTTP revision pointer, local
registries a local one; an `Err` or a missing pointer both collapse to
`none` (the `if let Ok(Some(pointer))` of the source). -/
def shard_revision (cache : Cache) (index : Index) (package : PackageName)
    (shard : String) : Option Revision :=
  match index.url with
  | IndexUrl.pypi _ | IndexUrl.url _ =>
      match cache.http_revision index.url package shard with
      | Except.ok (some pointer) => some pointer.into_revision
      | _ => none
  | IndexUrl.path _ =>
      match cache.local_revision index.url package shard with
      | Except.ok (some pointer) => some pointer.into_revision
      | _ => none

/-- Built-wheel outputs of one source-distribution shard that survive the
gates of the second loop of `RegistryWheelIndex::index` (lines 187–198): a
readable revision, a readable built wheel per symlink, and the hash gate on
the revision (not the wheel).  Returns the wheels passed on to `add_wheel`,
in scan order. -/
def shard_candidates (cache : Cache) (hasher : HashStrategy) (index : Index)
    (package : PackageName) (shard : String) : List CachedWheel :=
  match shard_revision cache index package shard with
  | some revision =>
      (cache.symlinks index.url package shard revision.id).filterMap
        (fun wheel_dir =>
          match cache.built_source wheel_dir with
          | some wheel =>
              if revision.satisfies
                  (hasher.get_package wheel.filename.name wheel.filename.version) then
                some wheel
              else none
          | none => none)
  | none => []

/-- First loop of `RegistryWheelIndex::index` (lines 110–151), as a fold of
`add_wheel` over the candidate yielded by each file. -/
def files_loop (cache : Cache) (tags : Tags) (hasher : HashStrategy) (index : Index)
    (package : PackageName) (fs : List File) (versions : VersionMap) : VersionMap :=
  fs.foldl (fun versions file =>
    match file_candidate cache hasher index package file with
    | some wheel => add_wheel wheel tags versions
    | none => versions) versions

/-- Second loop of `RegistryWheelIndex::index` (lines 161–199), as a fold of
`add_wheel` over each shard's surviving built wheels. -/
def shards_loop (cache : Cache) (tags : Tags) (hasher : HashStrategy) (index : Index)
    (package : PackageName) (shards : List String) (versions : VersionMap) : VersionMap :=
  shards.foldl (fun versions shard =>
    (shard_candidates cache hasher index package shard).foldl
      (fun versions wheel => add_wheel wheel tags versions) versions) versions

/-- Per-index body of `RegistryWheelIndex::index`: the `versions` map built
by scanning first the directly-downloaded wheels, then the built wheels, of
one index for one package. -/
def index_versions (cache : Cache) (tags : Tags) (hasher : HashStrategy)
    (package : PackageName) (index : Index) : VersionMap :=
  shards_loop cache tags hasher index package (cache.directories index.url package)
    (files_loop cache tags hasher index package (cache.files index.url package) [])

/-- Embeds `RegistryWheelIndex::index` (lines 81–205): scans every
configured index (then every flat source) in priority order and records the
per-version map computed for it. -/
def index_package (package : PackageName) (cache : Cache) (tags : Tags)
    (index_locations : IndexLocations) (hasher : HashStrategy) : IndexVersionsMap :=
  index_locations.flattened.foldl
    (fun map index =>
      indexMapInsert map index (index_versions cache tags hasher package index)) []

/-- Candidates sighted for one (package, index) pair during population, in
scan order: exactly the wheels `RegistryWheelIndex::index` passes to
`add_wheel` (those that survive the extension, pointer-read and hash
gates). -/
def sightings (cache : Cache) (hasher : HashStrategy) (package : PackageName)
    (index : Index) : List CachedWheel :=
  (cache.files index.url package).filterMap (file_candidate cache hasher index package)
    ++ (cache.directories index.url package).flatMap
        (shard_candidates cache hasher index package)

end RegistryWheelIndex

/-- Registry wheel index
(`uv_distribution::index::registry_wheel_index::RegistryWheelIndex`): the
configuration references plus the memoizing per-package map. -/
structure RegistryWheelIndex where
  cache : Cache
  tags : Tags
  index_locations : IndexLocations
  hasher : HashStrategy
  index : List (PackageName × IndexVersionsMap)

namespace RegistryWheelIndex

/-- Embeds `RegistryWheelIndex::new`. -/
def new (cache : Cache) (tags : Tags) (index_locations : IndexLocations)
    (hasher : HashStrategy) : RegistryWheelIndex :=
  { cache := cache, tags := tags, index_locations := index_locations,
    hasher := hasher, index := [] }

/-- Embeds `RegistryWheelIndex::get_impl` (lines 63–78): the entry API on the
per-package hash map, populating a vacant entry via `index_package`.  The
pair returns the entry together with the post-state of the `&mut self`
receiver. -/
def get_impl (self : RegistryWheelIndex) (name : PackageName) :
    IndexVersionsMap × RegistryWheelIndex :=
  match self.index.find? (fun kv => kv.1 == name) with
  | some entry => (entry.2, self)
  | none =>
      let computed := index_package name self.cache self.tags self.index_locations
        self.hasher
      (computed, { self with index := self.index ++ [(name, computed)] })

/-- Flattening of a per-package entry into (index, version, dist) triples:
the `flat_map` closure of `RegistryWheelIndex::get` (lines 55–59). -/
def flattenEntry (entry : IndexVersionsMap) : List (Index × Version × CachedRegistryDist) :=
  entry.flatMap (fun iv => iv.2.map (fun vd => (iv.1, vd.1, vd.2)))

/-- Embeds `RegistryWheelIndex::get` (lines 51–60): the sequence of
(index, version, dist) triples for a package, indexing the package first if
needed.  The pair returns the sequence together with the post-state of the
`&mut self` receiver. -/
def get (self : RegistryWheelIndex) (name : PackageName) :
    List (Index × Version × CachedRegistryDist) × RegistryWheelIndex :=
  let r := self.get_impl name
  (flattenEntry r.1, r.2)

/-- Iterated calls to `get`, used to range over every state reachable from a
freshly constructed index. -/
def gets_from (self : RegistryWheelIndex) (names : List PackageName) : RegistryWheelIndex :=
  names.foldl (fun s n => (s.get n).2) self

end RegistryWheelIndex

/-! ### Concrete sample data, used to instantiate the theorems -/

/-- Sample tag set. -/
def sampleTags : Tags := 0

/-- Sample directly-downloaded wheel: version 1, compatibility rank 2. -/
def sampleWheelA : CachedWheel :=
  { filename :=
      { name := "pkg", version := 1,
        compatibility := fun _ => TagCompatibility.compatible 2 },
    hashes := [7] }

/-- Sample built-from-source wheel: version 1, compatibility rank 5. -/
def sampleWheelB : CachedWheel :=
  { filename :=
      { name := "pkg", version := 1,
        compatibility := fun _ => TagCompatibility.compatible 5 },
    hashes := [8] }

/-- Sample remote registry index. -/
def sampleIndex : Index := { url := IndexUrl.pypi "https://pypi.org/simple" }

/-- Sample local path index. -/
def samplePathIndex : Index := { url := IndexUrl.path "file:///links" }

/-- Sample direct-download pointer file. -/
def sampleFile : File := { stem := "pkg-wheel", ext := some "http" }

/-- Sample hash strategy requiring nothing. -/
def sampleHasher : HashStrategy := { get_package := fun _ _ _ => true }

/-- Sample source revision. -/
def sampleRevision : Revision := { id := "rev0", hashes := [9] }

/-- Sample cache: one direct-download wheel (rank 2) and one built wheel
(rank 5) for package `pkg` at version 1, under any remote index; local
revision pointers are unreadable. -/
def sampleCache : Cache :=
  { files := fun _ _ => [sampleFile],
    http_pointer := fun _ _ _ => some sampleWheelA,
    local_pointer := fun _ _ _ => none,
    directories := fun _ _ => ["shard0"],
    http_revision := fun _ _ _ => Except.ok (some { revision := sampleRevision }),
    local_revision := fun _ _ _ => Except.error "unreadable",
    symlinks := fun _ _ _ _ => ["built0"],
    built_source := fun _ => some sampleWheelB }

/-- Sample configuration: the single remote index, no flat sources. -/
def sampleLocations : IndexLocations :=
  { allowed_indexes := [sampleIndex], flat_index := [] }

/-! ### Proof-support definitions -/

namespace RegistryWheelIndex

/-- Iterated `add_wheel` over a list of candidates: the common shape of both
loops of `RegistryWheelIndex::index` once the per-location gating has been
separated out. -/
def add_all (tags : Tags) (wheels : List CachedWheel) (versions : VersionMap) : VersionMap :=
  wheels.foldl (fun versions wheel => add_wheel wheel tags versions) versions

/-- Invariant tying a `VersionMap` to the list of candidates folded into it
by `add_wheel`: keys are strictly ascending; every retained record is
compatible, outranks (is never strictly outranked by) every processed
candidate of its version, and is the earliest processed candidate of its
version that every earlier same-version candidate strictly ranks below; and
a version with no record only ever saw incompatible candidates. -/
def merge_invariant (tags : Tags) (processed : List CachedWheel) (m : VersionMap) : Prop :=
  m.Pairwise (fun a b => a.1 < b.1) ∧
  (∀ v d, btreeGet m v = some d →
    (d.filename.compatibility tags).is_compatible = true ∧
    (∀ w ∈ processed, w.filename.version = v →
      TagCompatibility.cmp (w.filename.compatibility tags)
        (d.filename.compatibility tags) ≠ Ordering.gt) ∧
    (∃ p₁ w p₂, processed = p₁ ++ w :: p₂ ∧ d = w.into_registry_dist ∧
      w.filename.version = v ∧
      ∀ w' ∈ p₁, w'.filename.version = v →
        TagCompatibility.cmp (w'.filename.compatibility tags)
          (w.filename.compatibility tags) = Ordering.lt)) ∧
  (∀ v, btreeGet m v = none → ∀ w ∈ processed, w.filename.version = v →
    (w.filename.compatibility tags).is_compatible = false)

end RegistryWheelIndex

/-- Invariant of every `RegistryWheelIndex` state reachable from `new`: the
configuration fields are those it was built from and every memoized entry is
the population result for its package. -/
def RegistryWheelIndex.reach_inv (cache : Cache) (tags : Tags) (il : IndexLocations)
    (hasher : HashStrategy) (s : RegistryWheelIndex) : Prop :=
  s.cache = cache ∧ s.tags = tags ∧ s.index_locations = il ∧ s.hasher = hasher ∧
  ∀ e ∈ s.index, e.2 = RegistryWheelIndex.index_package e.1 cache tags il hasher

-- DEFINITIONS-END

/-! ### Theorems -/

namespace ForkIndexes

/-- Recording a pin for a vacant package makes `get` return it. -/
lemma get_append_self (s : ForkIndexes) (p : PackageName) (i : IndexUrl)
    (h : s.get p = none) : (s ++ [(p, i)]).get p = some i := by
  unfold get at *
  rw [List.find?_append]
  cases hf : s.find? (fun kv => kv.1 == p) with
  | some v => rw [hf] at h; simp at h
  | none => simp [List.find?]

/-- Recording a pin for one package leaves every other package's pin alone. -/
lemma get_append_other (s : ForkIndexes) (p q : PackageName) (i : IndexUrl)
    (h : q ≠ p) : (s ++ [(p, i)]).get q = s.get q := by
  unfold get
  rw [List.find?_append]
  cases hf : s.find? (fun kv => kv.1 == q) with
  | some v => simp
  | none =>
      have hf2 : List.find? (fun kv : PackageName × IndexUrl => kv.1 == q) [(p, i)] = none := by
        rw [List.find?_cons_of_neg, List.find?_nil]
        simp
        exact Ne.symm h
      rw [hf2]
      rfl

end ForkIndexes

/-- Sorting of the two-element conflict list does not depend on the call
order of the two conflicting indexes. -/
lemma sortConflicts_comm (a b : String) : sortConflicts a b = sortConflicts b a := by
  unfold sortConflicts
  rcases lt_trichotomy a b with h | h | h
  · rw [if_neg (asymm h), if_pos h]
  · subst h; rfl
  · rw [if_pos h, if_neg (asymm h)]

namespace ForkIndexes

/-- Inserting a pin for a package with no existing pin records it and
succeeds. -/
lemma insert_vacant (s : ForkIndexes) (p : PackageName) (i : IndexUrl)
    (m : ResolverMarkers) (h : s.get p = none) :
    s.insert p i m = (Except.ok (), s ++ [(p, i)]) := by
  unfold insert
  rw [h]

/-- Inserting the pin a package already holds succeeds and changes nothing. -/
lemma insert_same (s : ForkIndexes) (p : PackageName) (i : IndexUrl)
    (m : ResolverMarkers) (h : s.get p = some i) :
    s.insert p i m = (Except.ok (), s) := by
  unfold insert
  rw [h]
  simp

/-- Inserting a pin that differs from the package's existing pin fails with
the variant selected by the fork context and changes nothing. -/
lemma insert_conflict (s : ForkIndexes) (p : PackageName) (i j : IndexUrl)
    (m : ResolverMarkers) (h : s.get p = some i) (hne : i ≠ j) :
    s.insert p j m =
      ((match m with
        | ResolverMarkers.universal _ | ResolverMarkers.specificEnvironment _ =>
            Except.error (ResolveError.conflictingIndexesUniversal p
              (sortConflicts i.to_string j.to_string))
        | ResolverMarkers.fork fm =>
            Except.error (ResolveError.conflictingIndexesFork p
              (sortConflicts i.to_string j.to_string) fm)), s) := by
  unfold insert
  rw [h]
  dsimp only
  rw [if_pos hne]
  cases m <;> rfl

end ForkIndexes

namespace TagCompatibility

/-- Comparison of a ranking with itself is never strict. -/
lemma cmp_self (a : TagCompatibility) : cmp a a = Ordering.eq := by
  cases a <;> simp [cmp, Nat.compare_eq_eq]

/-- Whatever does not outrank `d` is strictly outranked by anything that
strictly outranks `d`. -/
lemma cmp_lt_of_le_of_gt {x d n : TagCompatibility}
    (h1 : cmp x d ≠ Ordering.gt) (h2 : cmp n d = Ordering.gt) :
    cmp x n = Ordering.lt := by
  cases x <;> cases d <;> cases n <;>
    simp [cmp, Nat.compare_eq_gt, Nat.compare_eq_lt, Nat.compare_eq_eq] at * <;> omega

/-- Whatever strictly outranks a compatible ranking is compatible. -/
lemma compatible_of_gt {n d : TagCompatibility}
    (h : cmp n d = Ordering.gt) (hd : d.is_compatible = true) :
    n.is_compatible = true := by
  cases n <;> cases d <;> simp [cmp, is_compatible] at *

/-- Incompatible rankings sit strictly below compatible ones. -/
lemma lt_of_incompatible_of_compatible {b d : TagCompatibility}
    (hb : b.is_compatible = false) (hd : d.is_compatible = true) :
    cmp b d = Ordering.lt := by
  cases b <;> cases d <;> simp [cmp, is_compatible] at *

/-- Strictly lower rankings do not outrank. -/
lemma ne_gt_of_lt {a b : TagCompatibility} (h : cmp a b = Ordering.lt) :
    cmp a b ≠ Ordering.gt := by
  rw [h]
  exact fun hh => by cases hh

end TagCompatibility

/-- Unfolding of `btreeGet` on a cons cell. -/
lemma btreeGet_cons (k : Version) (x : CachedRegistryDist) (rest : VersionMap) (v : Version) :
    btreeGet ((k, x) :: rest) v = if k = v then some x else btreeGet rest v := by
  by_cases h : k = v
  · subst h
    simp [btreeGet, List.find?]
  · have hk : (k == v) = false := by
      rw [beq_eq_false_iff_ne]
      exact h
    simp [btreeGet, List.find?, hk, h]

/-- Lookup of the just-inserted version yields the just-inserted record. -/
lemma btreeGet_insert_self (m : VersionMap) (v : Version) (d : CachedRegistryDist) :
    btreeGet (btreeInsert m v d) v = some d := by
  induction m with
  | nil =>
      simp [btreeInsert, btreeGet_cons]
  | cons kx rest ih =>
      obtain ⟨k, x⟩ := kx
      simp only [btreeInsert]
      by_cases h1 : v < k
      · rw [if_pos h1, btreeGet_cons, if_pos rfl]
      · rw [if_neg h1]
        by_cases h2 : v = k
        · rw [if_pos h2, btreeGet_cons, if_pos rfl]
        · have hk : ¬ k = v := fun hh => h2 hh.symm
          rw [if_neg h2, btreeGet_cons, if_neg hk]
          exact ih

/-- Lookup of any other version is unchanged by an insertion. -/
lemma btreeGet_insert_ne (m : VersionMap) (v w : Version) (d : CachedRegistryDist)
    (h : w ≠ v) : btreeGet (btreeInsert m v d) w = btreeGet m w := by
  have hvw : ¬ v = w := fun hh => h hh.symm
  induction m with
  | nil =>
      simp [btreeInsert, btreeGet_cons, hvw, btreeGet]
  | cons kx rest ih =>
      obtain ⟨k, x⟩ := kx
      simp only [btreeInsert]
      by_cases h1 : v < k
      · rw [if_pos h1, btreeGet_cons, if_neg hvw, btreeGet_cons]
      · rw [if_neg h1]
        by_cases h2 : v = k
        · subst h2
          rw [if_pos rfl, btreeGet_cons, if_neg hvw, btreeGet_cons, if_neg hvw]
        · rw [if_neg h2, btreeGet_cons, btreeGet_cons]
          by_cases h3 : k = w
          · rw [if_pos h3, if_pos h3]
          · rw [if_neg h3, if_neg h3]
            exact ih

/-- Membership after an insertion comes from the insertion or the old map. -/
lemma mem_btreeInsert {m : VersionMap} {v : Version} {d : CachedRegistryDist}
    {a : Version × CachedRegistryDist} (h : a ∈ btreeInsert m v d) :
    a = (v, d) ∨ a ∈ m := by
  induction m with
  | nil =>
      simp [btreeInsert] at h
      exact Or.inl h
  | cons kx rest ih =>
      obtain ⟨k, x⟩ := kx
      simp only [btreeInsert] at h
      by_cases h1 : v < k
      · rw [if_pos h1] at h
        rcases List.mem_cons.mp h with h3 | h3
        · exact Or.inl h3
        · exact Or.inr h3
      · rw [if_neg h1] at h
        by_cases h2 : v = k
        · rw [if_pos h2] at h
          rcases List.mem_cons.mp h with h3 | h3
          · exact Or.inl h3
          · exact Or.inr (List.mem_cons_of_mem _ h3)
        · rw [if_neg h2] at h
          rcases List.mem_cons.mp h with h3 | h3
          · exact Or.inr (by rw [h3]; exact List.mem_cons_self _ _)
          · rcases ih h3 with h4 | h4
            · exact Or.inl h4
            · exact Or.inr (List.mem_cons_of_mem _ h4)

/-- Insertion preserves the strictly-ascending-keys invariant. -/
lemma pairwise_btreeInsert {m : VersionMap} {v : Version} {d : CachedRegistryDist}
    (h : m.Pairwise (fun a b => a.1 < b.1)) :
    (btreeInsert m v d).Pairwise (fun a b => a.1 < b.1) := by
  induction m with
  | nil =>
      simp [btreeInsert]
  | cons kx rest ih =>
      obtain ⟨k, x⟩ := kx
      obtain ⟨hhead, htail⟩ := List.pairwise_cons.mp h
      simp only [btreeInsert]
      by_cases h1 : v < k
      · rw [if_pos h1]
        refine List.Pairwise.cons ?_ (List.Pairwise.cons hhead htail)
        intro a ha
        rcases List.mem_cons.mp ha with h3 | h3
        · rw [h3]
          exact h1
        · exact Nat.lt_trans h1 (hhead a h3)
      · rw [if_neg h1]
        by_cases h2 : v = k
        · rw [if_pos h2]
          subst h2
          exact List.Pairwise.cons hhead htail
        · have hkv : k < v := Nat.lt_of_le_of_ne (Nat.not_lt.mp h1) (fun hh => h2 hh.symm)
          rw [if_neg h2]
          refine List.Pairwise.cons ?_ (ih htail)
          intro a ha
          rcases mem_btreeInsert ha with h3 | h3
          · rw [h3]
            exact hkv
          · exact hhead a h3

/-- Conversion to a registry dist keeps the filename. -/
lemma into_registry_dist_filename (w : CachedWheel) :
    w.into_registry_dist.filename = w.filename := rfl

/-- Processing one more candidate with `add_wheel` preserves the merge
invariant, the processed list growing by that candidate. -/
lemma add_wheel_invariant (tags : Tags) (p : List CachedWheel) (m : VersionMap)
    (w : CachedWheel) (h : RegistryWheelIndex.merge_invariant tags p m) :
    RegistryWheelIndex.merge_invariant tags (p ++ [w])
      (RegistryWheelIndex.add_wheel w tags m) := by
  obtain ⟨hsort, hsome, hnone⟩ := h
  show RegistryWheelIndex.merge_invariant tags (p ++ [w])
    (match btreeGet m w.filename.version with
     | some existing =>
        if TagCompatibility.cmp (w.filename.compatibility tags)
            (existing.filename.compatibility tags) = Ordering.gt then
          btreeInsert m w.filename.version w.into_registry_dist
        else m
     | none =>
        if (w.filename.compatibility tags).is_compatible then
          btreeInsert m w.filename.version w.into_registry_dist
        else m)
  cases hget : btreeGet m w.filename.version with
  | some existing =>
      dsimp only
      obtain ⟨hcompat_e, hle_e, hdecomp_e⟩ := hsome w.filename.version existing hget
      by_cases hc : TagCompatibility.cmp (w.filename.compatibility tags)
          (existing.filename.compatibility tags) = Ordering.gt
      · rw [if_pos hc]
        refine ⟨pairwise_btreeInsert hsort, ?_, ?_⟩
        · intro v d hd
          by_cases hv : v = w.filename.version
          · subst hv
            rw [btreeGet_insert_self] at hd
            injection hd with hd
            subst hd
            rw [into_registry_dist_filename]
            refine ⟨TagCompatibility.compatible_of_gt hc hcompat_e, ?_, ?_⟩
            · intro w' hw' hver
              rcases List.mem_append.mp hw' with hw' | hw'
              · exact TagCompatibility.ne_gt_of_lt
                  (TagCompatibility.cmp_lt_of_le_of_gt (hle_e w' hw' hver) hc)
              · rw [List.mem_singleton.mp hw']
                rw [TagCompatibility.cmp_self]
                exact fun hh => by cases hh
            · refine ⟨p, w, [], by simp, rfl, rfl, ?_⟩
              intro w' hw' hver
              exact TagCompatibility.cmp_lt_of_le_of_gt (hle_e w' hw' hver) hc
          · rw [btreeGet_insert_ne m _ _ _ hv] at hd
            obtain ⟨hcompat_d, hle_d, hdecomp_d⟩ := hsome v d hd
            refine ⟨hcompat_d, ?_, ?_⟩
            · intro w' hw' hver
              rcases List.mem_append.mp hw' with hw' | hw'
              · exact hle_d w' hw' hver
              · rw [List.mem_singleton.mp hw'] at hver
                exact absurd hver (fun hh => hv hh.symm)
            · obtain ⟨p₁, w₀, p₂, hp, hd0, hver0, hlt0⟩ := hdecomp_d
              refine ⟨p₁, w₀, p₂ ++ [w], by rw [hp]; simp, hd0, hver0, hlt0⟩
        · intro v hd w' hw' hver
          by_cases hv : v = w.filename.version
          · subst hv
            rw [btreeGet_insert_self] at hd
            cases hd
          · rw [btreeGet_insert_ne m _ _ _ hv] at hd
            rcases List.mem_append.mp hw' with hw' | hw'
            · exact hnone v hd w' hw' hver
            · rw [List.mem_singleton.mp hw'] at hver
              exact absurd hver (fun hh => hv hh.symm)
      · rw [if_neg hc]
        refine ⟨hsort, ?_, ?_⟩
        · intro v d hd
          obtain ⟨hcompat_d, hle_d, hdecomp_d⟩ := hsome v d hd
          refine ⟨hcompat_d, ?_, ?_⟩
          · intro w' hw' hver
            rcases List.mem_append.mp hw' with hw' | hw'
            · exact hle_d w' hw' hver
            · rw [List.mem_singleton.mp hw'] at hver ⊢
              subst hver
              have : d = existing := by
                rw [hget] at hd
                injection hd with hd
                exact hd.symm
              rw [this]
              exact hc
          · obtain ⟨p₁, w₀, p₂, hp, hd0, hver0, hlt0⟩ := hdecomp_d
            refine ⟨p₁, w₀, p₂ ++ [w], by rw [hp]; simp, hd0, hver0, hlt0⟩
        · intro v hd w' hw' hver
          rcases List.mem_append.mp hw' with hw' | hw'
          · exact hnone v hd w' hw' hver
          · rw [List.mem_singleton.mp hw'] at hver
            subst hver
            rw [hd] at hget
            cases hget
  | none =>
      dsimp only
      by_cases hc : (w.filename.compatibility tags).is_compatible = true
      · rw [if_pos hc]
        refine ⟨pairwise_btreeInsert hsort, ?_, ?_⟩
        · intro v d hd
          by_cases hv : v = w.filename.version
          · subst hv
            rw [btreeGet_insert_self] at hd
            injection hd with hd
            subst hd
            rw [into_registry_dist_filename]
            refine ⟨hc, ?_, ?_⟩
            · intro w' hw' hver
              rcases List.mem_append.mp hw' with hw' | hw'
              · exact TagCompatibility.ne_gt_of_lt
                  (TagCompatibility.lt_of_incompatible_of_compatible
                    (hnone _ hget w' hw' hver) hc)
              · rw [List.mem_singleton.mp hw']
                rw [TagCompatibility.cmp_self]
                exact fun hh => by cases hh
            · refine ⟨p, w, [], by simp, rfl, rfl, ?_⟩
              intro w' hw' hver
              exact TagCompatibility.lt_of_incompatible_of_compatible
                (hnone _ hget w' hw' hver) hc
          · rw [btreeGet_insert_ne m _ _ _ hv] at hd
            obtain ⟨hcompat_d, hle_d, hdecomp_d⟩ := hsome v d hd
            refine ⟨hcompat_d, ?_, ?_⟩
            · intro w' hw' hver
              rcases List.mem_append.mp hw' with hw' | hw'
              · exact hle_d w' hw' hver
              · rw [List.mem_singleton.mp hw'] at hver
                exact absurd hver (fun hh => hv hh.symm)
            · obtain ⟨p₁, w₀, p₂, hp, hd0, hver0, hlt0⟩ := hdecomp_d
              refine ⟨p₁, w₀, p₂ ++ [w], by rw [hp]; simp, hd0, hver0, hlt0⟩
        · intro v hd w' hw' hver
          by_cases hv : v = w.filename.version
          · subst hv
            rw [btreeGet_insert_self] at hd
            cases hd
          · rw [btreeGet_insert_ne m _ _ _ hv] at hd
            rcases List.mem_append.mp hw' with hw' | hw'
            · exact hnone v hd w' hw' hver
            · rw [List.mem_singleton.mp hw'] at hver
              exact absurd hver (fun hh => hv hh.symm)
      · rw [if_neg hc]
        refine ⟨hsort, ?_, ?_⟩
        · intro v d hd
          obtain ⟨hcompat_d, hle_d, hdecomp_d⟩ := hsome v d hd
          refine ⟨hcompat_d, ?_, ?_⟩
          · intro w' hw' hver
            rcases List.mem_append.mp hw' with hw' | hw'
            · exact hle_d w' hw' hver
            · rw [List.mem_singleton.mp hw'] at hver ⊢
              subst hver
              exact TagCompatibility.ne_gt_of_lt
                (TagCompatibility.lt_of_incompatible_of_compatible
                  (Bool.eq_false_iff.mpr hc) hcompat_d)
          · obtain ⟨p₁, w₀, p₂, hp, hd0, hver0, hlt0⟩ := hdecomp_d
            refine ⟨p₁, w₀, p₂ ++ [w], by rw [hp]; simp, hd0, hver0, hlt0⟩
        · intro v hd w' hw' hver
          rcases List.mem_append.mp hw' with hw' | hw'
          · exact hnone v hd w' hw' hver
          · have hw2 := List.mem_singleton.mp hw'
            subst hw2
            exact Bool.eq_false_iff.mpr hc

namespace RegistryWheelIndex

/-- Start of the merge invariant: nothing processed, empty map. -/
lemma merge_invariant_nil (tags : Tags) : merge_invariant tags [] [] := by
  refine ⟨List.Pairwise.nil, ?_, ?_⟩
  · intro v d hd
    simp [btreeGet] at hd
  · intro v _ w hw
    cases hw

/-- Folding a list of candidates extends the merge invariant. -/
lemma add_all_invariant (tags : Tags) (S : List CachedWheel) (p : List CachedWheel)
    (m : VersionMap) (h : merge_invariant tags p m) :
    merge_invariant tags (p ++ S) (add_all tags S m) := by
  induction S generalizing p m with
  | nil => simpa using h
  | cons w S ih =>
      have h2 := add_wheel_invariant tags p m w h
      have h3 := ih (p ++ [w]) _ h2
      simpa [List.append_assoc] using h3

/-- Concatenation splits an iterated merge. -/
lemma add_all_append (tags : Tags) (a b : List CachedWheel) (m : VersionMap) :
    add_all tags (a ++ b) m = add_all tags b (add_all tags a m) := by
  simp [add_all, List.foldl_append]

/-- Fusion of the first loop: it merges exactly the file candidates. -/
lemma files_loop_eq_add_all (cache : Cache) (tags : Tags) (hasher : HashStrategy)
    (index : Index) (package : PackageName) (fs : List File) (m : VersionMap) :
    files_loop cache tags hasher index package fs m
      = add_all tags (fs.filterMap (file_candidate cache hasher index package)) m := by
  induction fs generalizing m with
  | nil => rfl
  | cons f fs ih =>
      have hstep : files_loop cache tags hasher index package (f :: fs) m
          = files_loop cache tags hasher index package fs
            (match file_candidate cache hasher index package f with
             | some wheel => add_wheel wheel tags m
             | none => m) := rfl
      rw [hstep]
      cases hc : file_candidate cache hasher index package f with
      | none =>
          dsimp only
          rw [List.filterMap_cons_none hc]
          exact ih m
      | some wheel =>
          dsimp only
          rw [List.filterMap_cons_some hc]
          exact ih (add_wheel wheel tags m)

/-- Fusion of the second loop: it merges exactly the shard candidates. -/
lemma shards_loop_eq_add_all (cache : Cache) (tags : Tags) (hasher : HashStrategy)
    (index : Index) (package : PackageName) (shards : List String) (m : VersionMap) :
    shards_loop cache tags hasher index package shards m
      = add_all tags (shards.flatMap (shard_candidates cache hasher index package)) m := by
  induction shards generalizing m with
  | nil => rfl
  | cons s rest ih =>
      have hstep : shards_loop cache tags hasher index package (s :: rest) m
          = shards_loop cache tags hasher index package rest
            (add_all tags (shard_candidates cache hasher index package s) m) := rfl
      rw [hstep, List.flatMap_cons, add_all_append]
      exact ih _

/-- Fusion of the whole per-index scan: `index_versions` is the iterated
merge of the sightings. -/
lemma index_versions_eq_add_all (cache : Cache) (tags : Tags) (hasher : HashStrategy)
    (package : PackageName) (index : Index) :
    index_versions cache tags hasher package index
      = add_all tags (sightings cache hasher package index) [] := by
  unfold index_versions sightings
  rw [files_loop_eq_add_all, shards_loop_eq_add_all, add_all_append]

/-- Population of one index satisfies the merge invariant for the sighted
candidates. -/
lemma index_versions_invariant (cache : Cache) (tags : Tags) (hasher : HashStrategy)
    (package : PackageName) (index : Index) :
    merge_invariant tags (sightings cache hasher package index)
      (index_versions cache tags hasher package index) := by
  rw [index_versions_eq_add_all]
  simpa using add_all_invariant tags (sightings cache hasher package index) [] []
    (merge_invariant_nil tags)

end RegistryWheelIndex

/-- Membership after an `IndexMap` insertion comes from the insertion or the
old map. -/
lemma mem_indexMapInsert {m : IndexVersionsMap} {k : Index} {v : VersionMap}
    {e : Index × VersionMap} (h : e ∈ indexMapInsert m k v) :
    e = (k, v) ∨ e ∈ m := by
  unfold indexMapInsert at h
  by_cases hany : m.any (fun kv => kv.1 == k)
  · rw [if_pos hany] at h
    obtain ⟨kv, hkv, he⟩ := List.mem_map.mp h
    by_cases hk : kv.1 == k
    · rw [if_pos hk] at he
      left
      rw [← he]
      have : kv.1 = k := by simpa using hk
      rw [this]
    · rw [if_neg hk] at he
      right
      rw [← he]
      exact hkv
  · rw [if_neg hany] at h
    rcases List.mem_append.mp h with h2 | h2
    · exact Or.inr h2
    · exact Or.inl (List.mem_singleton.mp h2)

namespace RegistryWheelIndex

/-- Fold invariant of `index_package`: every accumulated entry holds the
per-index population result for its key. -/
lemma index_package_fold_inv (cache : Cache) (tags : Tags) (hasher : HashStrategy)
    (package : PackageName) (L : List Index) (acc : IndexVersionsMap)
    (hacc : ∀ e ∈ acc, e.2 = index_versions cache tags hasher package e.1) :
    ∀ e ∈ L.foldl (fun map index =>
        indexMapInsert map index (index_versions cache tags hasher package index)) acc,
      e.2 = index_versions cache tags hasher package e.1 := by
  induction L generalizing acc with
  | nil => exact hacc
  | cons i rest ih =>
      intro e he
      refine ih (indexMapInsert acc i (index_versions cache tags hasher package i)) ?_ e he
      intro e2 he2
      rcases mem_indexMapInsert he2 with h2 | h2
      · rw [h2]
      · exact hacc e2 h2

/-- Every entry of `index_package` holds the per-index population result for
its key. -/
lemma index_package_mem {package : PackageName} {cache : Cache} {tags : Tags}
    {il : IndexLocations} {hasher : HashStrategy} {e : Index × VersionMap}
    (h : e ∈ index_package package cache tags il hasher) :
    e.2 = index_versions cache tags hasher package e.1 := by
  refine index_package_fold_inv cache tags hasher package il.flattened [] ?_ e h
  intro e2 he2
  cases he2

/-- Keys accumulated by the `index_package` fold, provided no key repeats. -/
lemma index_package_fold_keys (cache : Cache) (tags : Tags) (hasher : HashStrategy)
    (package : PackageName) (L : List Index) (acc : IndexVersionsMap)
    (hnodup : (acc.map Prod.fst ++ L).Nodup) :
    (L.foldl (fun map index =>
        indexMapInsert map index (index_versions cache tags hasher package index)) acc).map
      Prod.fst = acc.map Prod.fst ++ L := by
  induction L generalizing acc with
  | nil => simp
  | cons i rest ih =>
      have hnotin : i ∉ acc.map Prod.fst := by
        intro hmem
        rw [List.nodup_append] at hnodup
        exact hnodup.2.2 hmem (List.mem_cons_self _ _)
      have hany : acc.any (fun kv => kv.1 == i) = false := by
        rw [List.any_eq_false]
        intro kv hkv
        simp only [beq_iff_eq]
        intro hk
        exact hnotin (List.mem_map.mpr ⟨kv, hkv, hk⟩)
      have hstep : indexMapInsert acc i (index_versions cache tags hasher package i)
          = acc ++ [(i, index_versions cache tags hasher package i)] := by
        unfold indexMapInsert
        rw [hany]
        simp
      have hkeys : (acc ++ [(i, index_versions cache tags hasher package i)]).map Prod.fst
          = acc.map Prod.fst ++ [i] := by simp
      have hrec := ih (acc ++ [(i, index_versions cache tags hasher package i)])
        (by rw [hkeys, ← List.append_cons]; exact hnodup)
      calc (List.foldl (fun map index => indexMapInsert map index
            (index_versions cache tags hasher package index))
            acc (i :: rest)).map Prod.fst
      _ = (List.foldl (fun map index => indexMapInsert map index
            (index_versions cache tags hasher package index))
            (acc ++ [(i, index_versions cache tags hasher package i)]) rest).map Prod.fst := by
            rw [List.foldl_cons, hstep]
      _ = (acc ++ [(i, index_versions cache tags hasher package i)]).map Prod.fst ++ rest := hrec
      _ = acc.map Prod.fst ++ i :: rest := by rw [hkeys, ← List.append_cons]

/-- Keys of `index_package` are the flattened configured indexes, in order,
provided the configuration lists no index twice. -/
lemma index_package_keys {package : PackageName} {cache : Cache} {tags : Tags}
    {il : IndexLocations} {hasher : HashStrategy} (h : il.flattened.Nodup) :
    (index_package package cache tags il hasher).map Prod.fst = il.flattened := by
  have := index_package_fold_keys cache tags hasher package il.flattened []
    (by simpa using h)
  simpa [index_package] using this

end RegistryWheelIndex

namespace RegistryWheelIndex

/-- Freshly constructed index states satisfy the reachability invariant. -/
lemma reach_inv_new (cache : Cache) (tags : Tags) (il : IndexLocations)
    (hasher : HashStrategy) : reach_inv cache tags il hasher (new cache tags il hasher) := by
  refine ⟨rfl, rfl, rfl, rfl, ?_⟩
  intro e he
  cases he

/-- One `get` preserves the reachability invariant. -/
lemma reach_inv_get {cache : Cache} {tags : Tags} {il : IndexLocations}
    {hasher : HashStrategy} {s : RegistryWheelIndex} (hs : reach_inv cache tags il hasher s)
    (n : PackageName) : reach_inv cache tags il hasher (s.get n).2 := by
  obtain ⟨hc, ht, hi, hh, hentries⟩ := hs
  unfold get get_impl
  cases hf : s.index.find? (fun kv => kv.1 == n) with
  | some entry => exact ⟨hc, ht, hi, hh, hentries⟩
  | none =>
      refine ⟨hc, ht, hi, hh, ?_⟩
      intro e he
      dsimp only at he
      rcases List.mem_append.mp he with h2 | h2
      · exact hentries e h2
      · rw [List.mem_singleton.mp h2]
        dsimp only
        rw [hc, ht, hi, hh]

/-- Any sequence of `get` calls preserves the reachability invariant. -/
lemma reach_inv_gets_from {cache : Cache} {tags : Tags} {il : IndexLocations}
    {hasher : HashStrategy} {s : RegistryWheelIndex} (hs : reach_inv cache tags il hasher s)
    (names : List PackageName) : reach_inv cache tags il hasher (s.gets_from names) := by
  induction names generalizing s with
  | nil => exact hs
  | cons n rest ih => exact ih (reach_inv_get hs n)

/-- In any reachable state, `get` returns the flattening of the population
result for the queried package. -/
lemma get_output {cache : Cache} {tags : Tags} {il : IndexLocations}
    {hasher : HashStrategy} {s : RegistryWheelIndex} (hs : reach_inv cache tags il hasher s)
    (p : PackageName) :
    (s.get p).1 = flattenEntry (index_package p cache tags il hasher) := by
  obtain ⟨hc, ht, hi, hh, hentries⟩ := hs
  unfold get get_impl
  cases hf : s.index.find? (fun kv => kv.1 == p) with
  | some entry =>
      dsimp only
      have hmem := List.mem_of_find?_eq_some hf
      have hkey : entry.1 = p := by simpa using List.find?_some hf
      rw [hentries entry hmem, hkey]
  | none =>
      dsimp only
      rw [hc, ht, hi, hh]

/-- In any reachable state, the state after `get` memoizes the population
result for the queried package. -/
lemma get_memoized {cache : Cache} {tags : Tags} {il : IndexLocations}
    {hasher : HashStrategy} {s : RegistryWheelIndex} (hs : reach_inv cache tags il hasher s)
    (p : PackageName) :
    ((s.get p).2.index.find? (fun kv => kv.1 == p)).map (fun kv => kv.2)
      = some (index_package p cache tags il hasher) := by
  obtain ⟨hc, ht, hi, hh, hentries⟩ := hs
  unfold get get_impl
  cases hf : s.index.find? (fun kv => kv.1 == p) with
  | some entry =>
      dsimp only
      rw [hf]
      have hmem := List.mem_of_find?_eq_some hf
      have hkey : entry.1 = p := by simpa using List.find?_some hf
      show some entry.2 = some (index_package p cache tags il hasher)
      rw [hentries entry hmem, hkey]
  | none =>
      dsimp only
      rw [List.find?_append, hf]
      have : List.find? (fun kv : PackageName × IndexVersionsMap => kv.1 == p)
          [(p, index_package p s.cache s.tags s.index_locations s.hasher)]
          = some (p, index_package p s.cache s.tags s.index_locations s.hasher) := by
        simp [List.find?]
      rw [Option.none_or, this]
      rw [hc, ht, hi, hh]
      rfl

/-- A second `get` for an already fetched package leaves the state alone. -/
lemma get_stable {cache : Cache} {tags : Tags} {il : IndexLocations}
    {hasher : HashStrategy} {s : RegistryWheelIndex} (hs : reach_inv cache tags il hasher s)
    (p : PackageName) : ((s.get p).2.get p).2 = (s.get p).2 := by
  have hmem := get_memoized hs p
  cases hf : (s.get p).2.index.find? (fun kv => kv.1 == p) with
  | none => rw [hf] at hmem; cases hmem
  | some entry =>
      show ((s.get p).2.get_impl p).2 = (s.get p).2
      unfold get_impl
      rw [hf]

end RegistryWheelIndex

/-! ### Claim C3 -/

/-- C3 (counterexample to the claim as stated): the claim quantifies over
every tracker state, but in a state where package `a` is already pinned to a
third index `z`, the first of the two insertions (of `x`) already fails
rather than succeeding. -/
theorem c3_counterexample :
    (ForkIndexes.insert [(("a" : PackageName), IndexUrl.pypi "z")] "a" (IndexUrl.pypi "x")
      (ResolverMarkers.universal [])).1.isOk = false := rfl

/-- C3 (amended: the tracker state must not yet pin `p`): for every tracker
state with `p` unpinned and distinct indexes `i1 ≠ i2`, inserting `i1` then
`i2` for `p` succeeds then fails, the error carrying the pair of index
string forms sorted lexicographically — the same pair in either insertion
order. -/
theorem c3_fork_conflict_pair (s : ForkIndexes) (p : PackageName) (i1 i2 : IndexUrl)
    (m1 m2 m3 m4 : ResolverMarkers) (hget : s.get p = none) (hne : i1 ≠ i2) :
    (s.insert p i1 m1).1 = Except.ok () ∧
    (∃ e, ((s.insert p i1 m1).2.insert p i2 m2).1 = Except.error e ∧
      e.conflicts = sortConflicts i1.to_string i2.to_string) ∧
    (s.insert p i2 m3).1 = Except.ok () ∧
    (∃ e, ((s.insert p i2 m3).2.insert p i1 m4).1 = Except.error e ∧
      e.conflicts = sortConflicts i1.to_string i2.to_string) := by
  have h1 := ForkIndexes.insert_vacant s p i1 m1 hget
  have h2 := ForkIndexes.insert_vacant s p i2 m3 hget
  have hg1 : (s ++ [(p, i1)]).get p = some i1 := ForkIndexes.get_append_self s p i1 hget
  have hg2 : (s ++ [(p, i2)]).get p = some i2 := ForkIndexes.get_append_self s p i2 hget
  refine ⟨by rw [h1], ?_, by rw [h2], ?_⟩
  · rw [h1]
    dsimp only
    rw [ForkIndexes.insert_conflict (s ++ [(p, i1)]) p i1 i2 m2 hg1 hne]
    cases m2 with
    | universal a => exact ⟨_, rfl, rfl⟩
    | specificEnvironment a => exact ⟨_, rfl, rfl⟩
    | fork a => exact ⟨_, rfl, rfl⟩
  · rw [h2]
    dsimp only
    rw [ForkIndexes.insert_conflict (s ++ [(p, i2)]) p i2 i1 m4 hg2 (Ne.symm hne)]
    cases m4 with
    | universal a => exact ⟨_, rfl, sortConflicts_comm i2.to_string i1.to_string⟩
    | specificEnvironment a => exact ⟨_, rfl, sortConflicts_comm i2.to_string i1.to_string⟩
    | fork a => exact ⟨_, rfl, sortConflicts_comm i2.to_string i1.to_string⟩

/-- C3 (witness): the amended claim instantiated on an empty tracker with the
indexes `x` and `y` for package `a`, with every hypothesis discharged. -/
theorem c3_witness :
    (ForkIndexes.get [] "a" = none) ∧ (IndexUrl.pypi "x" ≠ IndexUrl.pypi "y") ∧
    ((ForkIndexes.insert [] "a" (IndexUrl.pypi "x") (ResolverMarkers.universal [])).1
        = Except.ok () ∧
      (∃ e, ((ForkIndexes.insert [] "a" (IndexUrl.pypi "x")
          (ResolverMarkers.universal [])).2.insert "a" (IndexUrl.pypi "y")
          (ResolverMarkers.universal [])).1 = Except.error e ∧
        e.conflicts = sortConflicts (IndexUrl.pypi "x").to_string
          (IndexUrl.pypi "y").to_string) ∧
      (ForkIndexes.insert [] "a" (IndexUrl.pypi "y") (ResolverMarkers.universal [])).1
        = Except.ok () ∧
      (∃ e, ((ForkIndexes.insert [] "a" (IndexUrl.pypi "y")
          (ResolverMarkers.universal [])).2.insert "a" (IndexUrl.pypi "x")
          (ResolverMarkers.universal [])).1 = Except.error e ∧
        e.conflicts = sortConflicts (IndexUrl.pypi "x").to_string
          (IndexUrl.pypi "y").to_string)) :=
  ⟨rfl, by decide,
    c3_fork_conflict_pair [] "a" (IndexUrl.pypi "x") (IndexUrl.pypi "y")
      (ResolverMarkers.universal []) (ResolverMarkers.universal [])
      (ResolverMarkers.universal []) (ResolverMarkers.universal []) rfl (by decide)⟩

/-! ### Claim C6 -/

/-- C6 (counterexample to the claim as stated): the claim quantifies over
every tracker state, but in a state where package `b` is already pinned to a
different index `u`, the first insertion of `v` fails rather than
succeeding. -/
theorem c6_counterexample :
    (ForkIndexes.insert [(("b" : PackageName), IndexUrl.url "u")] "b" (IndexUrl.url "v")
      (ResolverMarkers.universal [])).1.isOk = false := rfl

/-- C6 (amended: the tracker state must not pin `p` to a different index):
for every tracker state in which `p` is unpinned or already pinned to `i`,
inserting `i` for `p` twice succeeds both times, the second call leaves the
state of the first call unchanged, and `get p` then returns `some i`. -/
theorem c6_fork_idempotent (s : ForkIndexes) (p : PackageName) (i : IndexUrl)
    (m1 m2 : ResolverMarkers) (h : s.get p = none ∨ s.get p = some i) :
    (s.insert p i m1).1 = Except.ok () ∧
    ((s.insert p i m1).2.insert p i m2).1 = Except.ok () ∧
    ((s.insert p i m1).2.insert p i m2).2 = (s.insert p i m1).2 ∧
    ((s.insert p i m1).2.insert p i m2).2.get p = some i := by
  rcases h with h | h
  · have h1 := ForkIndexes.insert_vacant s p i m1 h
    have hg : (s ++ [(p, i)]).get p = some i := ForkIndexes.get_append_self s p i h
    have h2 := ForkIndexes.insert_same (s ++ [(p, i)]) p i m2 hg
    refine ⟨by rw [h1], ?_, ?_, ?_⟩
    · rw [h1]
      dsimp only
      rw [h2]
    · rw [h1]
      dsimp only
      rw [h2]
    · rw [h1]
      dsimp only
      rw [h2]
      exact hg
  · have h1 := ForkIndexes.insert_same s p i m1 h
    have h2 := ForkIndexes.insert_same s p i m2 h
    refine ⟨by rw [h1], ?_, ?_, ?_⟩
    · rw [h1]
      dsimp only
      rw [h2]
    · rw [h1]
      dsimp only
      rw [h2]
    · rw [h1]
      dsimp only
      rw [h2]
      exact h

/-- C6 (witness): the amended claim instantiated on an empty tracker for
package `b` and index `u`, under two different fork contexts. -/
theorem c6_witness :
    ((ForkIndexes.get [] "b" = none) ∨ (ForkIndexes.get [] "b" = some (IndexUrl.url "u"))) ∧
    ((ForkIndexes.insert [] "b" (IndexUrl.url "u") (ResolverMarkers.fork "m")).1
        = Except.ok () ∧
      ((ForkIndexes.insert [] "b" (IndexUrl.url "u") (ResolverMarkers.fork "m")).2.insert "b"
          (IndexUrl.url "u") (ResolverMarkers.specificEnvironment "e")).1 = Except.ok () ∧
      ((ForkIndexes.insert [] "b" (IndexUrl.url "u") (ResolverMarkers.fork "m")).2.insert "b"
          (IndexUrl.url "u") (ResolverMarkers.specificEnvironment "e")).2
        = (ForkIndexes.insert [] "b" (IndexUrl.url "u") (ResolverMarkers.fork "m")).2 ∧
      ((ForkIndexes.insert [] "b" (IndexUrl.url "u") (ResolverMarkers.fork "m")).2.insert "b"
          (IndexUrl.url "u") (ResolverMarkers.specificEnvironment "e")).2.get "b"
        = some (IndexUrl.url "u")) :=
  ⟨Or.inl rfl,
    c6_fork_idempotent [] "b" (IndexUrl.url "u") (ResolverMarkers.fork "m")
      (ResolverMarkers.specificEnvironment "e") (Or.inl rfl)⟩

/-! ### Claim C7 -/

/-- C7: in every tracker state where `p` is pinned to `i`, inserting a
different index `j` for `p` fails, the map is left unchanged (`p` stays
pinned to `i` and no other package's entry moves). -/
theorem c7_pin_never_overwritten (s : ForkIndexes) (p : PackageName) (i j : IndexUrl)
    (m : ResolverMarkers) (hpin : s.get p = some i) (hne : j ≠ i) :
    (∃ e, (s.insert p j m).1 = Except.error e) ∧
    (s.insert p j m).2 = s ∧
    (s.insert p j m).2.get p = some i ∧
    (∀ q, (s.insert p j m).2.get q = s.get q) := by
  rw [ForkIndexes.insert_conflict s p i j m hpin (Ne.symm hne)]
  refine ⟨?_, rfl, hpin, fun q => rfl⟩
  cases m with
  | universal a => exact ⟨_, rfl⟩
  | specificEnvironment a => exact ⟨_, rfl⟩
  | fork a => exact ⟨_, rfl⟩

/-- C7 (witness): the claim instantiated on a tracker pinning `c` to the
path index `x`, with an attempted overwrite by `y`. -/
theorem c7_witness :
    (ForkIndexes.get [("c", IndexUrl.path "x")] "c" = some (IndexUrl.path "x")) ∧
    (IndexUrl.path "y" ≠ IndexUrl.path "x") ∧
    ((∃ e, (ForkIndexes.insert [("c", IndexUrl.path "x")] "c" (IndexUrl.path "y")
        (ResolverMarkers.universal [])).1 = Except.error e) ∧
      (ForkIndexes.insert [("c", IndexUrl.path "x")] "c" (IndexUrl.path "y")
        (ResolverMarkers.universal [])).2 = [("c", IndexUrl.path "x")] ∧
      (ForkIndexes.insert [("c", IndexUrl.path "x")] "c" (IndexUrl.path "y")
        (ResolverMarkers.universal [])).2.get "c" = some (IndexUrl.path "x") ∧
      (∀ q, (ForkIndexes.insert [("c", IndexUrl.path "x")] "c" (IndexUrl.path "y")
        (ResolverMarkers.universal [])).2.get q
          = ForkIndexes.get [("c", IndexUrl.path "x")] q)) :=
  ⟨rfl, by decide,
    c7_pin_never_overwritten [("c", IndexUrl.path "x")] "c" (IndexUrl.path "x")
      (IndexUrl.path "y") (ResolverMarkers.universal []) rfl (by decide)⟩

/-! ### Claim C8 -/

/-- C8: whenever `insert` fails, the failure came from an occupied pin with
a different index, and the error variant is selected solely by the shape of
the fork context: universal and specific-environment contexts produce the
plain conflicting-indexes error with the package name and the sorted index
pair, while a marker fork produces the fork variant additionally carrying
those markers. -/
theorem c8_error_variant_by_context (s : ForkIndexes) (p : PackageName) (i : IndexUrl)
    (m : ResolverMarkers) (e : ResolveError) (h : (s.insert p i m).1 = Except.error e) :
    ∃ previous, s.get p = some previous ∧ previous ≠ i ∧
      ((∀ forks, m = ResolverMarkers.universal forks →
        e = ResolveError.conflictingIndexesUniversal p
          (sortConflicts previous.to_string i.to_string)) ∧
       (∀ env, m = ResolverMarkers.specificEnvironment env →
        e = ResolveError.conflictingIndexesUniversal p
          (sortConflicts previous.to_string i.to_string)) ∧
       (∀ fm, m = ResolverMarkers.fork fm →
        e = ResolveError.conflictingIndexesFork p
          (sortConflicts previous.to_string i.to_string) fm)) := by
  cases hget : s.get p with
  | none =>
      rw [ForkIndexes.insert_vacant s p i m hget] at h
      cases h
  | some previous =>
      by_cases hne : previous = i
      · subst hne
        rw [ForkIndexes.insert_same s p previous m hget] at h
        cases h
      · rw [ForkIndexes.insert_conflict s p previous i m hget hne] at h
        cases m with
        | universal a =>
            dsimp only at h
            injection h with h2
            refine ⟨previous, rfl, hne, ?_, ?_, ?_⟩
            · intro forks hm
              rw [← h2]
            · intro env hm
              cases hm
            · intro fm hm
              cases hm
        | specificEnvironment a =>
            dsimp only at h
            injection h with h2
            refine ⟨previous, rfl, hne, ?_, ?_, ?_⟩
            · intro forks hm
              cases hm
            · intro env hm
              rw [← h2]
            · intro fm hm
              cases hm
        | fork a =>
            dsimp only at h
            injection h with h2
            refine ⟨previous, rfl, hne, ?_, ?_, ?_⟩
            · intro forks hm
              cases hm
            · intro env hm
              cases hm
            · intro fm hm
              injection hm with hm2
              rw [← h2, hm2]

/-- C8 (witness): the claim instantiated on a conflicting insertion under a
marker-constrained fork context. -/
theorem c8_witness :
    ((ForkIndexes.insert [("d", IndexUrl.pypi "a")] "d" (IndexUrl.pypi "b")
        (ResolverMarkers.fork "mk")).1
      = Except.error (ResolveError.conflictingIndexesFork "d" (sortConflicts "a" "b") "mk")) ∧
    (∃ previous, ForkIndexes.get [("d", IndexUrl.pypi "a")] "d" = some previous ∧
      previous ≠ IndexUrl.pypi "b" ∧
      ((∀ forks, ResolverMarkers.fork "mk" = ResolverMarkers.universal forks →
        ResolveError.conflictingIndexesFork "d" (sortConflicts "a" "b") "mk"
          = ResolveError.conflictingIndexesUniversal "d"
            (sortConflicts previous.to_string (IndexUrl.pypi "b").to_string)) ∧
       (∀ env, ResolverMarkers.fork "mk" = ResolverMarkers.specificEnvironment env →
        ResolveError.conflictingIndexesFork "d" (sortConflicts "a" "b") "mk"
          = ResolveError.conflictingIndexesUniversal "d"
            (sortConflicts previous.to_string (IndexUrl.pypi "b").to_string)) ∧
       (∀ fm, ResolverMarkers.fork "mk" = ResolverMarkers.fork fm →
        ResolveError.conflictingIndexesFork "d" (sortConflicts "a" "b") "mk"
          = ResolveError.conflictingIndexesFork "d"
            (sortConflicts previous.to_string (IndexUrl.pypi "b").to_string) fm))) :=
  ⟨rfl,
    c8_error_variant_by_context [("d", IndexUrl.pypi "a")] "d" (IndexUrl.pypi "b")
      (ResolverMarkers.fork "mk")
      (ResolveError.conflictingIndexesFork "d" (sortConflicts "a" "b") "mk") rfl⟩

/-! ### Claim C10 -/

/-- C10: the fork-context argument of `insert` never influences whether the
call succeeds, nor the post-state; two calls differing only in their fork
context agree on success, agree on the resulting tracker, and any two
conflict errors they produce carry the same package name and the same sorted
index pair, differing at most in the variant. -/
theorem c10_fork_context_noninterference (s : ForkIndexes) (p : PackageName) (i : IndexUrl)
    (m1 m2 : ResolverMarkers) :
    (s.insert p i m1).1.isOk = (s.insert p i m2).1.isOk ∧
    (s.insert p i m1).2 = (s.insert p i m2).2 ∧
    (∀ e1 e2, (s.insert p i m1).1 = Except.error e1 →
      (s.insert p i m2).1 = Except.error e2 →
      e1.package_name = e2.package_name ∧ e1.conflicts = e2.conflicts) := by
  cases hget : s.get p with
  | none =>
      rw [ForkIndexes.insert_vacant s p i m1 hget, ForkIndexes.insert_vacant s p i m2 hget]
      exact ⟨rfl, rfl, fun e1 e2 h1 h2 => by cases h1⟩
  | some previous =>
      by_cases hne : previous = i
      · subst hne
        rw [ForkIndexes.insert_same s p previous m1 hget,
          ForkIndexes.insert_same s p previous m2 hget]
        exact ⟨rfl, rfl, fun e1 e2 h1 h2 => by cases h1⟩
      · rw [ForkIndexes.insert_conflict s p previous i m1 hget hne,
          ForkIndexes.insert_conflict s p previous i m2 hget hne]
        refine ⟨?_, rfl, ?_⟩
        · cases m1 <;> cases m2 <;> rfl
        · intro e1 e2 h1 h2
          cases m1 <;> cases m2 <;>
            (dsimp only at h1 h2
             injection h1 with h1
             injection h2 with h2
             rw [← h1, ← h2]
             exact ⟨rfl, rfl⟩)

/-- C10 (witness): the claim instantiated at a conflicting insertion under a
universal and a fork context. -/
theorem c10_witness :
    (ForkIndexes.insert [("d", IndexUrl.pypi "a")] "d" (IndexUrl.pypi "b")
        (ResolverMarkers.universal [])).1.isOk
      = (ForkIndexes.insert [("d", IndexUrl.pypi "a")] "d" (IndexUrl.pypi "b")
        (ResolverMarkers.fork "mk")).1.isOk ∧
    (ForkIndexes.insert [("d", IndexUrl.pypi "a")] "d" (IndexUrl.pypi "b")
        (ResolverMarkers.universal [])).2
      = (ForkIndexes.insert [("d", IndexUrl.pypi "a")] "d" (IndexUrl.pypi "b")
        (ResolverMarkers.fork "mk")).2 ∧
    (∀ e1 e2, (ForkIndexes.insert [("d", IndexUrl.pypi "a")] "d" (IndexUrl.pypi "b")
        (ResolverMarkers.universal [])).1 = Except.error e1 →
      (ForkIndexes.insert [("d", IndexUrl.pypi "a")] "d" (IndexUrl.pypi "b")
        (ResolverMarkers.fork "mk")).1 = Except.error e2 →
      e1.package_name = e2.package_name ∧ e1.conflicts = e2.conflicts) :=
  c10_fork_context_noninterference [("d", IndexUrl.pypi "a")] "d" (IndexUrl.pypi "b")
    (ResolverMarkers.universal []) (ResolverMarkers.fork "mk")

/-- Membership determines lookup in a map with strictly ascending keys. -/
lemma btreeGet_of_mem {m : VersionMap} (hp : m.Pairwise (fun a b => a.1 < b.1))
    {v : Version} {d : CachedRegistryDist} (h : (v, d) ∈ m) :
    btreeGet m v = some d := by
  induction m with
  | nil => cases h
  | cons kx rest ih =>
      obtain ⟨k, x⟩ := kx
      obtain ⟨hhead, htail⟩ := List.pairwise_cons.mp hp
      rcases List.mem_cons.mp h with h2 | h2
      · injection h2 with h3 h4
        rw [btreeGet_cons, if_pos h3.symm, h4]
      · have hk : ¬ k = v := by
          have := hhead (v, d) h2
          exact Nat.ne_of_lt this
        rw [btreeGet_cons, if_neg hk]
        exact ih htail h2

/-! ### Claim C1 -/

/-- C1: for every cache, configuration, tag set and package, each retained
record of the populated per-index version map is unique for its version, is
never strictly outranked by any candidate sighted for that (index, version)
during population, and is the earliest sighting of its version that every
earlier same-version sighting strictly ranks below — so a record is replaced
only by a strictly higher ranking and ties keep the earlier-inserted
record. -/
theorem c1_best_of_version (cache : Cache) (tags : Tags) (hasher : HashStrategy)
    (il : IndexLocations) (package : PackageName) (idx : Index) (vm : VersionMap)
    (hmem : (idx, vm) ∈ RegistryWheelIndex.index_package package cache tags il hasher) :
    (vm.map Prod.fst).Nodup ∧
    (∀ v d, btreeGet vm v = some d →
      (∀ w ∈ RegistryWheelIndex.sightings cache hasher package idx,
        w.filename.version = v →
        TagCompatibility.cmp (w.filename.compatibility tags)
          (d.filename.compatibility tags) ≠ Ordering.gt) ∧
      (∃ p₁ w p₂, RegistryWheelIndex.sightings cache hasher package idx = p₁ ++ w :: p₂ ∧
        d = w.into_registry_dist ∧ w.filename.version = v ∧
        ∀ w' ∈ p₁, w'.filename.version = v →
          TagCompatibility.cmp (w'.filename.compatibility tags)
            (w.filename.compatibility tags) = Ordering.lt)) := by
  have hvm : vm = RegistryWheelIndex.index_versions cache tags hasher package idx :=
    RegistryWheelIndex.index_package_mem hmem
  have hinv := RegistryWheelIndex.index_versions_invariant cache tags hasher package idx
  rw [← hvm] at hinv
  obtain ⟨hsort, hsome, hnone⟩ := hinv
  constructor
  · have hne := List.Pairwise.imp (fun hab => Nat.ne_of_lt hab) hsort
    exact (List.pairwise_map).mpr hne
  · intro v d hd
    obtain ⟨hc, hle, hdec⟩ := hsome v d hd
    exact ⟨hle, hdec⟩

/-- C1 (witness): the claim instantiated on the sample cache, whose single
index retains the built rank-5 wheel at version 1 against a sighted rank-2
direct wheel. -/
theorem c1_witness :
    ((sampleIndex, [(1, sampleWheelB.into_registry_dist)])
        ∈ RegistryWheelIndex.index_package "pkg" sampleCache sampleTags sampleLocations
          sampleHasher) ∧
    (([(1, sampleWheelB.into_registry_dist)].map Prod.fst).Nodup ∧
    (∀ v d, btreeGet [(1, sampleWheelB.into_registry_dist)] v = some d →
      (∀ w ∈ RegistryWheelIndex.sightings sampleCache sampleHasher "pkg" sampleIndex,
        w.filename.version = v →
        TagCompatibility.cmp (w.filename.compatibility sampleTags)
          (d.filename.compatibility sampleTags) ≠ Ordering.gt) ∧
      (∃ p₁ w p₂, RegistryWheelIndex.sightings sampleCache sampleHasher "pkg" sampleIndex
          = p₁ ++ w :: p₂ ∧
        d = w.into_registry_dist ∧ w.filename.version = v ∧
        ∀ w' ∈ p₁, w'.filename.version = v →
          TagCompatibility.cmp (w'.filename.compatibility sampleTags)
            (w.filename.compatibility sampleTags) = Ordering.lt))) :=
  ⟨List.mem_singleton.mpr rfl,
    c1_best_of_version sampleCache sampleTags sampleHasher sampleLocations "pkg" sampleIndex
      [(1, sampleWheelB.into_registry_dist)] (List.mem_singleton.mpr rfl)⟩

/-! ### Claim C2 -/

/-- C2: for every cache state, configuration, tag set and package name, and
any sequence of prior queries, no candidate whose compatibility against the
active tag set is incompatible ever appears in the output of `get`. -/
theorem c2_compatibility_admission (cache : Cache) (tags : Tags) (il : IndexLocations)
    (hasher : HashStrategy) (names : List PackageName) (p : PackageName)
    (idx : Index) (v : Version) (d : CachedRegistryDist)
    (hmem : (idx, v, d) ∈ ((RegistryWheelIndex.gets_from
        (RegistryWheelIndex.new cache tags il hasher) names).get p).1) :
    (d.filename.compatibility tags).is_compatible = true := by
  have hreach := RegistryWheelIndex.reach_inv_gets_from
    (RegistryWheelIndex.reach_inv_new cache tags il hasher) names
  rw [RegistryWheelIndex.get_output hreach p] at hmem
  unfold RegistryWheelIndex.flattenEntry at hmem
  obtain ⟨iv, hiv, hmem2⟩ := List.mem_flatMap.mp hmem
  obtain ⟨vd, hvd, heq⟩ := List.mem_map.mp hmem2
  injection heq with h1 h2
  injection h2 with h2 h3
  have hvm : iv.2 = RegistryWheelIndex.index_versions cache tags hasher p iv.1 :=
    RegistryWheelIndex.index_package_mem hiv
  have hinv := RegistryWheelIndex.index_versions_invariant cache tags hasher p iv.1
  rw [← hvm] at hinv
  obtain ⟨hsort, hsome, hnone⟩ := hinv
  have hget : btreeGet iv.2 vd.1 = some vd.2 := btreeGet_of_mem hsort (by simpa using hvd)
  have := (hsome vd.1 vd.2 hget).1
  rw [← h3]
  exact this

/-- C2 (witness): the claim instantiated on the sample cache: the single
output triple carries the compatible rank-5 wheel. -/
theorem c2_witness :
    ((sampleIndex, 1, sampleWheelB.into_registry_dist)
        ∈ ((RegistryWheelIndex.gets_from (RegistryWheelIndex.new sampleCache sampleTags
          sampleLocations sampleHasher) []).get "pkg").1) ∧
    ((sampleWheelB.into_registry_dist.filename.compatibility sampleTags).is_compatible
      = true) :=
  ⟨List.mem_singleton.mpr rfl,
    c2_compatibility_admission sampleCache sampleTags sampleLocations sampleHasher [] "pkg"
      sampleIndex 1 sampleWheelB.into_registry_dist (List.mem_singleton.mpr rfl)⟩

/-! ### Claim C4 -/

/-- C4: a directly-downloaded wheel survives the admission gates only if the
wheel's own hashes satisfy the policy for its (name, version); a
built-from-source wheel survives only if its source revision's hashes do;
and every retained record of the populated index originates from a sighting
that passed its gate — failing candidates are skipped without error (the
population function is total) and never reach the index. -/
theorem c4_hash_gating (cache : Cache) (tags : Tags) (il : IndexLocations)
    (hasher : HashStrategy) (package : PackageName) :
    (∀ index file wheel,
      RegistryWheelIndex.file_candidate cache hasher index package file = some wheel →
      wheel.satisfies (hasher.get_package wheel.filename.name wheel.filename.version)
        = true) ∧
    (∀ index shard wheel,
      wheel ∈ RegistryWheelIndex.shard_candidates cache hasher index package shard →
      ∃ revision,
        RegistryWheelIndex.shard_revision cache index package shard = some revision ∧
        revision.satisfies (hasher.get_package wheel.filename.name wheel.filename.version)
          = true) ∧
    (∀ idx vm v d,
      (idx, vm) ∈ RegistryWheelIndex.index_package package cache tags il hasher →
      btreeGet vm v = some d →
      ∃ wheel, wheel ∈ RegistryWheelIndex.sightings cache hasher package idx ∧
        d = wheel.into_registry_dist) := by
  refine ⟨?_, ?_, ?_⟩
  · intro index file wheel h
    unfold RegistryWheelIndex.file_candidate at h
    cases hu : index.url with
    | pypi u =>
        rw [hu] at h
        by_cases hext : file.ext.any (fun ext => eqIgnoreAsciiCase ext "http")
        · rw [if_pos hext] at h
          cases hp : cache.http_pointer index.url package file with
          | none => rw [hu] at hp; rw [hp] at h; cases h
          | some w0 =>
              rw [hu] at hp
              rw [hp] at h
              dsimp only at h
              by_cases hsat : w0.satisfies
                  (hasher.get_package w0.filename.name w0.filename.version) = true
              · rw [if_pos hsat] at h
                injection h with h
                rw [← h]
                exact hsat
              · rw [if_neg hsat] at h
                cases h
        · rw [if_neg hext] at h
          cases h
    | url u =>
        rw [hu] at h
        by_cases hext : file.ext.any (fun ext => eqIgnoreAsciiCase ext "http")
        · rw [if_pos hext] at h
          cases hp : cache.http_pointer index.url package file with
          | none => rw [hu] at hp; rw [hp] at h; cases h
          | some w0 =>
              rw [hu] at hp
              rw [hp] at h
              dsimp only at h
              by_cases hsat : w0.satisfies
                  (hasher.get_package w0.filename.name w0.filename.version) = true
              · rw [if_pos hsat] at h
                injection h with h
                rw [← h]
                exact hsat
              · rw [if_neg hsat] at h
                cases h
        · rw [if_neg hext] at h
          cases h
    | path u =>
        rw [hu] at h
        by_cases hext : file.ext.any (fun ext => eqIgnoreAsciiCase ext "rev")
        · rw [if_pos hext] at h
          cases hp : cache.local_pointer index.url package file with
          | none => rw [hu] at hp; rw [hp] at h; cases h
          | some w0 =>
              rw [hu] at hp
              rw [hp] at h
              dsimp only at h
              by_cases hsat : w0.satisfies
                  (hasher.get_package w0.filename.name w0.filename.version) = true
              · rw [if_pos hsat] at h
                injection h with h
                rw [← h]
                exact hsat
              · rw [if_neg hsat] at h
                cases h
        · rw [if_neg hext] at h
          cases h
  · intro index shard wheel h
    unfold RegistryWheelIndex.shard_candidates at h
    cases hrev : RegistryWheelIndex.shard_revision cache index package shard with
    | none =>
        rw [hrev] at h
        cases h
    | some revision =>
        rw [hrev] at h
        dsimp only at h
        obtain ⟨dir, hdir, hf⟩ := List.mem_filterMap.mp h
        cases hb : cache.built_source dir with
        | none => rw [hb] at hf; cases hf
        | some w0 =>
            rw [hb] at hf
            dsimp only at hf
            by_cases hsat : revision.satisfies
                (hasher.get_package w0.filename.name w0.filename.version) = true
            · rw [if_pos hsat] at hf
              injection hf with hf
              rw [← hf]
              exact ⟨revision, rfl, hsat⟩
            · rw [if_neg hsat] at hf
              cases hf
  · intro idx vm v d hmem hget
    have hvm : vm = RegistryWheelIndex.index_versions cache tags hasher package idx :=
      RegistryWheelIndex.index_package_mem hmem
    have hinv := RegistryWheelIndex.index_versions_invariant cache tags hasher package idx
    rw [← hvm] at hinv
    obtain ⟨hsort, hsome, hnone⟩ := hinv
    obtain ⟨hc, hle, p₁, w, p₂, hS, hd, hver, hlt⟩ := hsome v d hget
    refine ⟨w, ?_, hd⟩
    rw [hS]
    exact List.mem_append.mpr (Or.inr (List.mem_cons_self _ _))

/-- C4 (witness): the gates instantiated on the sample cache: the direct
wheel passed its own-hash check and the single retained record originates
from a sighting. -/
theorem c4_witness :
    (RegistryWheelIndex.file_candidate sampleCache sampleHasher sampleIndex "pkg" sampleFile
      = some sampleWheelA) ∧
    (sampleWheelA.satisfies (sampleHasher.get_package sampleWheelA.filename.name
      sampleWheelA.filename.version) = true) :=
  ⟨rfl,
    (c4_hash_gating sampleCache sampleTags sampleLocations sampleHasher "pkg").1 sampleIndex
      sampleFile sampleWheelA rfl⟩

/-! ### Claim C5 -/

/-- C5: for a fixed cache and configuration (whose flattened index list
repeats no index), `get p` returns the flattening of the population result
in every reachable state — so every call returns the same sequence — with
index keys exactly the configured-priority order (configured indexes before
flat sources), versions strictly ascending within each index, the second
call returning the same sequence and leaving the state unchanged, and the
per-package entry memoized as the population result. -/
theorem c5_deterministic_get (cache : Cache) (tags : Tags) (il : IndexLocations)
    (hasher : HashStrategy) (names : List PackageName) (p : PackageName)
    (hnodup : il.flattened.Nodup) :
    ((RegistryWheelIndex.gets_from (RegistryWheelIndex.new cache tags il hasher) names).get
        p).1
      = RegistryWheelIndex.flattenEntry
          (RegistryWheelIndex.index_package p cache tags il hasher) ∧
    (((RegistryWheelIndex.gets_from (RegistryWheelIndex.new cache tags il hasher)
          names).get p).2.get p).1
      = RegistryWheelIndex.flattenEntry
          (RegistryWheelIndex.index_package p cache tags il hasher) ∧
    (((RegistryWheelIndex.gets_from (RegistryWheelIndex.new cache tags il hasher)
          names).get p).2.get p).2
      = ((RegistryWheelIndex.gets_from (RegistryWheelIndex.new cache tags il hasher)
          names).get p).2 ∧
    (RegistryWheelIndex.index_package p cache tags il hasher).map Prod.fst = il.flattened ∧
    (∀ e ∈ RegistryWheelIndex.index_package p cache tags il hasher,
      e.2.Pairwise (fun a b => a.1 < b.1)) ∧
    (((RegistryWheelIndex.gets_from (RegistryWheelIndex.new cache tags il hasher)
          names).get p).2.index.find? (fun kv => kv.1 == p)).map (fun kv => kv.2)
      = some (RegistryWheelIndex.index_package p cache tags il hasher) := by
  have hreach := RegistryWheelIndex.reach_inv_gets_from
    (RegistryWheelIndex.reach_inv_new cache tags il hasher) names
  have hreach2 := RegistryWheelIndex.reach_inv_get hreach p
  refine ⟨RegistryWheelIndex.get_output hreach p,
    RegistryWheelIndex.get_output hreach2 p,
    RegistryWheelIndex.get_stable hreach p,
    RegistryWheelIndex.index_package_keys hnodup, ?_,
    RegistryWheelIndex.get_memoized hreach p⟩
  intro e he
  have hvm := RegistryWheelIndex.index_package_mem he
  rw [hvm]
  exact (RegistryWheelIndex.index_versions_invariant cache tags hasher p e.1).1

/-- C5 (witness): the claim instantiated on the sample configuration (one
configured index, no flat sources). -/
theorem c5_witness :
    sampleLocations.flattened.Nodup ∧
    (((RegistryWheelIndex.gets_from (RegistryWheelIndex.new sampleCache sampleTags
          sampleLocations sampleHasher) []).get "pkg").1
      = RegistryWheelIndex.flattenEntry
          (RegistryWheelIndex.index_package "pkg" sampleCache sampleTags sampleLocations
            sampleHasher) ∧
    (((RegistryWheelIndex.gets_from (RegistryWheelIndex.new sampleCache sampleTags
          sampleLocations sampleHasher) []).get "pkg").2.get "pkg").1
      = RegistryWheelIndex.flattenEntry
          (RegistryWheelIndex.index_package "pkg" sampleCache sampleTags sampleLocations
            sampleHasher) ∧
    (((RegistryWheelIndex.gets_from (RegistryWheelIndex.new sampleCache sampleTags
          sampleLocations sampleHasher) []).get "pkg").2.get "pkg").2
      = ((RegistryWheelIndex.gets_from (RegistryWheelIndex.new sampleCache sampleTags
          sampleLocations sampleHasher) []).get "pkg").2 ∧
    (RegistryWheelIndex.index_package "pkg" sampleCache sampleTags sampleLocations
        sampleHasher).map Prod.fst = sampleLocations.flattened ∧
    (∀ e ∈ RegistryWheelIndex.index_package "pkg" sampleCache sampleTags sampleLocations
        sampleHasher, e.2.Pairwise (fun a b => a.1 < b.1)) ∧
    (((RegistryWheelIndex.gets_from (RegistryWheelIndex.new sampleCache sampleTags
          sampleLocations sampleHasher) []).get "pkg").2.index.find?
        (fun kv => kv.1 == "pkg")).map (fun kv => kv.2)
      = some (RegistryWheelIndex.index_package "pkg" sampleCache sampleTags sampleLocations
          sampleHasher)) :=
  ⟨by decide,
    c5_deterministic_get sampleCache sampleTags sampleLocations sampleHasher [] "pkg"
      (by decide)⟩

/-! ### Claim C9 -/

/-- C9: population is total (it returns a map, never an error), and a
pointer record that is missing, unreadable or unparseable contributes no
candidate from its location while the scan of the remaining files and
directories continues unaffected: a shard whose revision read collapses to
`none` (an `Err` or a missing pointer) yields no candidates and may be
dropped from the directory scan without changing the result, and a file
whose reader yields no wheel may be dropped from the file scan without
changing the result. -/
theorem c9_population_resilient (cache : Cache) (tags : Tags) (hasher : HashStrategy)
    (index : Index) (package : PackageName) (file : File) (shard : String)
    (f₁ f₂ : List File) (l₁ l₂ : List String) (versions : VersionMap)
    (hfile : RegistryWheelIndex.file_candidate cache hasher index package file = none)
    (hshard : RegistryWheelIndex.shard_revision cache index package shard = none) :
    RegistryWheelIndex.shard_candidates cache hasher index package shard = [] ∧
    RegistryWheelIndex.files_loop cache tags hasher index package (f₁ ++ file :: f₂) versions
      = RegistryWheelIndex.files_loop cache tags hasher index package (f₁ ++ f₂) versions ∧
    RegistryWheelIndex.shards_loop cache tags hasher index package (l₁ ++ shard :: l₂)
        versions
      = RegistryWheelIndex.shards_loop cache tags hasher index package (l₁ ++ l₂) versions ∧
    (∀ err, cache.http_revision index.url package shard = Except.error err →
      index.url.is_remote = true →
      RegistryWheelIndex.shard_revision cache index package shard = none) ∧
    (cache.http_revision index.url package shard = Except.ok none →
      index.url.is_remote = true →
      RegistryWheelIndex.shard_revision cache index package shard = none) ∧
    (∀ err, cache.local_revision index.url package shard = Except.error err →
      index.url.is_remote = false →
      RegistryWheelIndex.shard_revision cache index package shard = none) ∧
    (cache.local_revision index.url package shard = Except.ok none →
      index.url.is_remote = false →
      RegistryWheelIndex.shard_revision cache index package shard = none) ∧
    (cache.http_pointer index.url package file = none → index.url.is_remote = true →
      RegistryWheelIndex.file_candidate cache hasher index package file = none) ∧
    (cache.local_pointer index.url package file = none → index.url.is_remote = false →
      RegistryWheelIndex.file_candidate cache hasher index package file = none) := by
  have hcand : RegistryWheelIndex.shard_candidates cache hasher index package shard = [] := by
    unfold RegistryWheelIndex.shard_candidates
    rw [hshard]
  have hfsplit : ∀ (a b : List File) (m : VersionMap),
      RegistryWheelIndex.files_loop cache tags hasher index package (a ++ b) m
        = RegistryWheelIndex.files_loop cache tags hasher index package b
            (RegistryWheelIndex.files_loop cache tags hasher index package a m) := by
    intro a b m
    simp [RegistryWheelIndex.files_loop, List.foldl_append]
  have hssplit : ∀ (a b : List String) (m : VersionMap),
      RegistryWheelIndex.shards_loop cache tags hasher index package (a ++ b) m
        = RegistryWheelIndex.shards_loop cache tags hasher index package b
            (RegistryWheelIndex.shards_loop cache tags hasher index package a m) := by
    intro a b m
    simp [RegistryWheelIndex.shards_loop, List.foldl_append]
  refine ⟨hcand, ?_, ?_, ?_, ?_, ?_, ?_, ?_, ?_⟩
  · rw [hfsplit f₁ (file :: f₂), hfsplit f₁ f₂]
    have hstep : ∀ m : VersionMap,
        RegistryWheelIndex.files_loop cache tags hasher index package (file :: f₂) m
          = RegistryWheelIndex.files_loop cache tags hasher index package f₂ m := by
      intro m
      have hred : RegistryWheelIndex.files_loop cache tags hasher index package
          (file :: f₂) m
          = RegistryWheelIndex.files_loop cache tags hasher index package f₂
            (match RegistryWheelIndex.file_candidate cache hasher index package file with
             | some wheel => RegistryWheelIndex.add_wheel wheel tags m
             | none => m) := rfl
      rw [hred, hfile]
    exact hstep _
  · rw [hssplit l₁ (shard :: l₂), hssplit l₁ l₂]
    have hstep : ∀ m : VersionMap,
        RegistryWheelIndex.shards_loop cache tags hasher index package (shard :: l₂) m
          = RegistryWheelIndex.shards_loop cache tags hasher index package l₂ m := by
      intro m
      have hred : RegistryWheelIndex.shards_loop cache tags hasher index package
          (shard :: l₂) m
          = RegistryWheelIndex.shards_loop cache tags hasher index package l₂
            ((RegistryWheelIndex.shard_candidates cache hasher index package shard).foldl
              (fun versions wheel => RegistryWheelIndex.add_wheel wheel tags versions)
              m) := rfl
      rw [hred, hcand]
      rfl
    exact hstep _
  · intro err herr hrem
    unfold RegistryWheelIndex.shard_revision
    cases hu : index.url with
    | pypi u =>
        rw [hu] at herr
        rw [herr]
    | url u =>
        rw [hu] at herr
        rw [herr]
    | path u =>
        rw [hu] at hrem
        cases hrem
  · intro hok hrem
    unfold RegistryWheelIndex.shard_revision
    cases hu : index.url with
    | pypi u =>
        rw [hu] at hok
        rw [hok]
    | url u =>
        rw [hu] at hok
        rw [hok]
    | path u =>
        rw [hu] at hrem
        cases hrem
  · intro err herr hrem
    unfold RegistryWheelIndex.shard_revision
    cases hu : index.url with
    | pypi u =>
        rw [hu] at hrem
        cases hrem
    | url u =>
        rw [hu] at hrem
        cases hrem
    | path u =>
        rw [hu] at herr
        rw [herr]
  · intro hok hrem
    unfold RegistryWheelIndex.shard_revision
    cases hu : index.url with
    | pypi u =>
        rw [hu] at hrem
        cases hrem
    | url u =>
        rw [hu] at hrem
        cases hrem
    | path u =>
        rw [hu] at hok
        rw [hok]
  · intro hp hrem
    unfold RegistryWheelIndex.file_candidate
    cases hu : index.url with
    | pypi u =>
        rw [hu] at hp
        by_cases hext : file.ext.any (fun ext => eqIgnoreAsciiCase ext "http")
        · rw [if_pos hext, hp]
        · rw [if_neg hext]
    | url u =>
        rw [hu] at hp
        by_cases hext : file.ext.any (fun ext => eqIgnoreAsciiCase ext "http")
        · rw [if_pos hext, hp]
        · rw [if_neg hext]
    | path u =>
        rw [hu] at hrem
        cases hrem
  · intro hp hrem
    unfold RegistryWheelIndex.file_candidate
    cases hu : index.url with
    | pypi u =>
        rw [hu] at hrem
        cases hrem
    | url u =>
        rw [hu] at hrem
        cases hrem
    | path u =>
        rw [hu] at hp
        by_cases hext : file.ext.any (fun ext => eqIgnoreAsciiCase ext "rev")
        · rw [if_pos hext, hp]
        · rw [if_neg hext]

/-- C9 (witness): the claim instantiated on the sample cache through the
local path index, whose revision pointers are unreadable and whose local
pointer reader yields no wheel. -/
theorem c9_witness :
    (RegistryWheelIndex.file_candidate sampleCache sampleHasher samplePathIndex "pkg"
      sampleFile = none) ∧
    (RegistryWheelIndex.shard_revision sampleCache samplePathIndex "pkg" "s" = none) ∧
    (RegistryWheelIndex.shard_candidates sampleCache sampleHasher samplePathIndex "pkg" "s"
        = [] ∧
      RegistryWheelIndex.files_loop sampleCache sampleTags sampleHasher samplePathIndex
          "pkg" ([] ++ sampleFile :: []) []
        = RegistryWheelIndex.files_loop sampleCache sampleTags sampleHasher samplePathIndex
          "pkg" ([] ++ []) [] ∧
      RegistryWheelIndex.shards_loop sampleCache sampleTags sampleHasher samplePathIndex
          "pkg" ([] ++ "s" :: []) []
        = RegistryWheelIndex.shards_loop sampleCache sampleTags sampleHasher samplePathIndex
          "pkg" ([] ++ []) [] ∧
      (∀ err, sampleCache.http_revision samplePathIndex.url "pkg" "s" = Except.error err →
        samplePathIndex.url.is_remote = true →
        RegistryWheelIndex.shard_revision sampleCache samplePathIndex "pkg" "s" = none) ∧
      (sampleCache.http_revision samplePathIndex.url "pkg" "s" = Except.ok none →
        samplePathIndex.url.is_remote = true →
        RegistryWheelIndex.shard_revision sampleCache samplePathIndex "pkg" "s" = none) ∧
      (∀ err, sampleCache.local_revision samplePathIndex.url "pkg" "s" = Except.error err →
        samplePathIndex.url.is_remote = false →
        RegistryWheelIndex.shard_revision sampleCache samplePathIndex "pkg" "s" = none) ∧
      (sampleCache.local_revision samplePathIndex.url "pkg" "s" = Except.ok none →
        samplePathIndex.url.is_remote = false →
        RegistryWheelIndex.shard_revision sampleCache samplePathIndex "pkg" "s" = none) ∧
      (sampleCache.http_pointer samplePathIndex.url "pkg" sampleFile = none →
        samplePathIndex.url.is_remote = true →
        RegistryWheelIndex.file_candidate sampleCache sampleHasher samplePathIndex "pkg"
          sampleFile = none) ∧
      (sampleCache.local_pointer samplePathIndex.url "pkg" sampleFile = none →
        samplePathIndex.url.is_remote = false →
        RegistryWheelIndex.file_candidate sampleCache sampleHasher samplePathIndex "pkg"
          sampleFile = none)) :=
  ⟨rfl, rfl,
    c9_population_resilient sampleCache sampleTags sampleHasher samplePathIndex "pkg"
      sampleFile "s" [] [] [] [] [] rfl rfl⟩
